import Mathlib

/-!
Static.cpp : Ramer-Douglas-Peucker simplification with a static work partition.

Shallow embedding of `src/Static/Static.cpp`.

* The definitions are written over any type `α` with `0`, `+`, `-`, `*`, `/` and a decidable
  `<`, and the library `sqrt` is a parameter `sqrt : α → α`. The contract theorems read
  `double` as exact reals, `α := ℝ`, `sqrt := Real.sqrt`. The type `Dbl` is a second reading
  that keeps overflow to infinity and NaN (finite results exact, no rounding); the same
  definitions are evaluated on it where the exact reading hides what the program does.
* `vector<Point>` is `List (Point α)`; `v[i]` is `List.getD v i (0, 0)` (every access the
  program makes is in bounds, so the default is never observed).
* `int` counters are `Nat`: all of them stay between `0` and the vector size, which is taken
  to fit an `int`.
* `throw` is `Except.error`; the recursion of `RamerDouglasPeucker` is driven by a fuel
  counter, `none` meaning that the fuel ran out (shown never to happen, `RDPaux_fuel_irrel`
  and `RamerDouglasPeucker_unfold`).
* The OpenMP parallel region is the sequence of the workers' loops, worker `0` first: workers
  only read `AllPolylines` and write `SimplifiedAllPolylines[k]`.
-/

namespace Static

/-- The type `typedef pair<double, double> Point`. -/
abbrev Point (α : Type) := α × α

/-- The exceptions thrown by `RamerDouglasPeucker`. -/
inductive RDPError where
  | invalid_argument -- "Not enough points to simplify"
  | runtime_error    -- "Problem assembling output"
  deriving DecidableEq, Repr

section Defs

variable {α : Type} [Zero α] [Add α] [Sub α] [Mul α] [Div α] [LT α]
  [DecidableRel (fun a b : α => a < b)]

/-- Source lines 22-42, `PerpendicularDistance`. -/
def PerpendicularDistance (sqrt : α → α) (pt lineStart lineEnd : Point α) : α :=
  let dx := lineEnd.1 - lineStart.1
  let dy := lineEnd.2 - lineStart.2
  let mag := sqrt (dx * dx + dy * dy)
  let dx1 := if mag > 0 then dx / mag else dx
  let dy1 := if mag > 0 then dy / mag else dy
  let pvx := pt.1 - lineStart.1
  let pvy := pt.2 - lineStart.2
  let ax := pvx - (dx1 * pvx + dy1 * pvy) * dx1
  let ay := pvy - (dx1 * pvx + dy1 * pvy) * dy1
  sqrt (ax * ax + ay * ay)

/-- Body of the scan loop, source lines 59-64, on the state `(index, dmax)`. -/
def scanStep (sqrt : α → α) (pointList : List (Point α)) (endRDP : Nat)
    (st : Nat × α) (i : Nat) : Nat × α :=
  let d := PerpendicularDistance sqrt (pointList.getD i (0, 0)) (pointList.getD 0 (0, 0))
    (pointList.getD endRDP (0, 0))
  if d > st.2 then (i, d) else st

/-- Source lines 54-65: `dmax = 0.0; index = 0; for (i = 1; i < endRDP; i++) ...`;
returns `(index, dmax)`. -/
def scan (sqrt : α → α) (pointList : List (Point α)) (endRDP : Nat) : Nat × α :=
  (List.range' 1 (endRDP - 1)).foldl (scanStep sqrt pointList endRDP) (0, 0)

/-- Source lines 46-93, `RamerDouglasPeucker`, with a fuel counter for the recursion. The
result `none` means out of fuel; `some (.error _)` is a thrown exception and
`some (.ok out)` a normal return with the output parameter `out`. An exception of the first
recursive call propagates before the second call is made. The range
`recResults1.begin() .. recResults1.end() - 1` is `recResults1.dropLast` (a call that returns
normally never returns an empty vector). -/
def RDPaux (sqrt : α → α) :
    Nat → List (Point α) → α → Option (Except RDPError (List (Point α)))
  | 0, _, _ => none
  | fuel + 1, pointList, epsilon =>
    if pointList.length < 2 then some (.error .invalid_argument)
    else
      let endRDP := pointList.length - 1
      let index := (scan sqrt pointList endRDP).1
      let dmax := (scan sqrt pointList endRDP).2
      if dmax > epsilon then
        let firstLine := pointList.take (index + 1)
        let lastLine := pointList.drop index
        match RDPaux sqrt fuel firstLine epsilon with
        | none => none
        | some (.error err) => some (.error err)
        | some (.ok recResults1) =>
          match RDPaux sqrt fuel lastLine epsilon with
          | none => none
          | some (.error err) => some (.error err)
          | some (.ok recResults2) =>
            let out := recResults1.dropLast ++ recResults2
            if out.length < 2 then some (.error .runtime_error) else some (.ok out)
      else some (.ok [pointList.getD 0 (0, 0), pointList.getD endRDP (0, 0)])

/-- The function `RamerDouglasPeucker` of the source: `RDPaux` with fuel that always
suffices (one more than the number of points). -/
def RamerDouglasPeucker (sqrt : α → α) (pointList : List (Point α)) (epsilon : α) :
    Option (Except RDPError (List (Point α))) :=
  RDPaux sqrt (pointList.length + 1) pointList epsilon

/-- Source lines 200-216: the indices `k` on which worker `id` calls
`RamerDouglasPeucker`, in order: the main range and, for the last worker when its `k`
stopped below `numberOfLinesInFile`, the remainder loop that restarts at
`4 * workload_number`. -/
def workerIndices (numberOfLinesInFile numberOfThreads id : Nat) : List Nat :=
  let workload_number := numberOfLinesInFile / numberOfThreads
  let mainRange := List.range' (id * workload_number) workload_number
  let k := id * workload_number + workload_number
  if id = numberOfThreads - 1 ∧ k < numberOfLinesInFile then
    mainRange ++ List.range' (4 * workload_number) (numberOfLinesInFile - 4 * workload_number)
  else mainRange

/-- All indices processed in the parallel region, worker by worker. -/
def processedIndices (numberOfLinesInFile numberOfThreads : Nat) : List Nat :=
  (List.range numberOfThreads).flatMap (workerIndices numberOfLinesInFile numberOfThreads)

/-- One call `RamerDouglasPeucker(AllPolylines[k], epsilon, SimplifiedAllPolylines[k])`
(source lines 202 and 213). An exception leaves the parallel region and ends the program:
`none`. -/
def simplifyInto (sqrt : α → α) (AllPolylines : List (List (Point α))) (epsilon : α)
    (SimplifiedAllPolylines : List (List (Point α))) (k : Nat) :
    Option (List (List (Point α))) :=
  match RamerDouglasPeucker sqrt (AllPolylines.getD k []) epsilon with
  | some (.ok out) => some (SimplifiedAllPolylines.set k out)
  | _ => none

/-- Source lines 160-220: `SimplifiedAllPolylines` is assigned a copy of `AllPolylines`,
then every worker runs its loops. -/
def runBatch (sqrt : α → α) (AllPolylines : List (List (Point α))) (epsilon : α)
    (numberOfThreads : Nat) : Option (List (List (Point α))) :=
  (processedIndices AllPolylines.length numberOfThreads).foldlM
    (simplifyInto sqrt AllPolylines epsilon) AllPolylines

end Defs

/-! ### A model of `double` that keeps overflow and NaN -/

/-- The values of a `double`: a finite value (kept as an exact rational: rounding of finite
results is not modelled, and the two zeros are one), the two infinities and NaN. -/
inductive Dbl where
  | fin (q : ℚ)
  | pinf
  | ninf
  | nan
  deriving DecidableEq

namespace Dbl

/-- The least magnitude that rounds to infinity in binary64, `2^1024 - 2^970`. -/
def overflowAt : ℚ := 2 ^ 1024 - 2 ^ 970

/-- A finite result: it overflows to an infinity when its magnitude reaches `overflowAt`. -/
def ofRat (q : ℚ) : Dbl :=
  if overflowAt ≤ q then pinf else if q ≤ -overflowAt then ninf else fin q

/-- Sign of a finite value applied to an infinity; `0 * inf` is NaN. -/
def signedInf (q : ℚ) (positive : Bool) : Dbl :=
  if q = 0 then nan else if (0 < q) = positive then pinf else ninf

/-- IEEE addition on the special values, exact with overflow on finite values. -/
def add : Dbl → Dbl → Dbl
  | fin a, fin b => ofRat (a + b)
  | fin _, pinf => pinf
  | fin _, ninf => ninf
  | pinf, fin _ => pinf
  | ninf, fin _ => ninf
  | pinf, pinf => pinf
  | ninf, ninf => ninf
  | pinf, ninf => nan
  | ninf, pinf => nan
  | nan, _ => nan
  | _, nan => nan

/-- IEEE subtraction. -/
def sub : Dbl → Dbl → Dbl
  | fin a, fin b => ofRat (a - b)
  | fin _, pinf => ninf
  | fin _, ninf => pinf
  | pinf, fin _ => pinf
  | ninf, fin _ => ninf
  | pinf, ninf => pinf
  | ninf, pinf => ninf
  | pinf, pinf => nan
  | ninf, ninf => nan
  | nan, _ => nan
  | _, nan => nan

/-- IEEE multiplication. -/
def mul : Dbl → Dbl → Dbl
  | fin a, fin b => ofRat (a * b)
  | fin a, pinf => signedInf a true
  | fin a, ninf => signedInf a false
  | pinf, fin b => signedInf b true
  | ninf, fin b => signedInf b false
  | pinf, pinf => pinf
  | ninf, ninf => pinf
  | pinf, ninf => ninf
  | ninf, pinf => ninf
  | nan, _ => nan
  | _, nan => nan

/-- IEEE division: `inf / inf` and `0 / 0` are NaN, a finite value over an infinity is `0`. -/
def div : Dbl → Dbl → Dbl
  | fin a, fin b => if b = 0 then signedInf a true else ofRat (a / b)
  | fin _, pinf => fin 0
  | fin _, ninf => fin 0
  | pinf, fin b => if 0 ≤ b then pinf else ninf
  | ninf, fin b => if 0 ≤ b then ninf else pinf
  | pinf, pinf => nan
  | ninf, ninf => nan
  | pinf, ninf => nan
  | ninf, pinf => nan
  | nan, _ => nan
  | _, nan => nan

/-- IEEE `<`: false as soon as one side is NaN. -/
def lt : Dbl → Dbl → Bool
  | fin a, fin b => decide (a < b)
  | fin _, pinf => true
  | ninf, fin _ => true
  | ninf, pinf => true
  | _, _ => false

/-- IEEE `<=`: false as soon as one side is NaN. -/
def le : Dbl → Dbl → Bool
  | fin a, fin b => decide (a ≤ b)
  | fin _, pinf => true
  | ninf, fin _ => true
  | ninf, pinf => true
  | pinf, pinf => true
  | ninf, ninf => true
  | _, _ => false

/-- IEEE `sqrt` on the special values; on a finite non-negative value the rational
`Rat.sqrt`, exact on squares. -/
def sqrt : Dbl → Dbl
  | fin q => if q < 0 then nan else fin (Rat.sqrt q)
  | pinf => pinf
  | ninf => nan
  | nan => nan

instance : Zero Dbl := ⟨fin 0⟩
instance : Add Dbl := ⟨add⟩
instance : Sub Dbl := ⟨sub⟩
instance : Mul Dbl := ⟨mul⟩
instance : Div Dbl := ⟨div⟩
instance : LT Dbl := ⟨fun a b => lt a b = true⟩
instance : LE Dbl := ⟨fun a b => le a b = true⟩
instance : DecidableRel (fun a b : Dbl => a < b) := fun a b => decEq (lt a b) true
instance : DecidableRel (fun a b : Dbl => a ≤ b) := fun a b => decEq (le a b) true

end Dbl

section AuxDefs

variable {α : Type} [LinearOrderedField α]

/-- The distance computed at iteration `i` of the scan loop (source line 59). -/
def distAt (sqrt : α → α) (pointList : List (Point α)) (endRDP i : Nat) : α :=
  PerpendicularDistance sqrt (pointList.getD i (0, 0)) (pointList.getD 0 (0, 0))
    (pointList.getD endRDP (0, 0))

/-- Result of a first-maximum scan: what the loop state `r` is after the loop has visited
the indices `s, ..., s + m - 1` starting from the state `st`. -/
def ScanPost (d : Nat → α) (s m : Nat) (st r : Nat × α) : Prop :=
  (r = st ∧ ∀ i, s ≤ i → i < s + m → d i ≤ st.2) ∨
  (s ≤ r.1 ∧ r.1 < s + m ∧ r.2 = d r.1 ∧ st.2 < r.2 ∧
    (∀ i, s ≤ i → i < r.1 → d i < r.2) ∧ ∀ i, s ≤ i → i < s + m → d i ≤ r.2)

/-- The body of `RamerDouglasPeucker` with the two recursive calls abstracted as `call`. -/
def RDPbody (sqrt : α → α) (call : List (Point α) → Option (Except RDPError (List (Point α))))
    (pointList : List (Point α)) (epsilon : α) : Option (Except RDPError (List (Point α))) :=
  if pointList.length < 2 then some (.error .invalid_argument)
  else
    if (scan sqrt pointList (pointList.length - 1)).2 > epsilon then
      match call (pointList.take ((scan sqrt pointList (pointList.length - 1)).1 + 1)) with
      | none => none
      | some (.error err) => some (.error err)
      | some (.ok recResults1) =>
        match call (pointList.drop (scan sqrt pointList (pointList.length - 1)).1) with
        | none => none
        | some (.error err) => some (.error err)
        | some (.ok recResults2) =>
          if (recResults1.dropLast ++ recResults2).length < 2 then some (.error .runtime_error)
          else some (.ok (recResults1.dropLast ++ recResults2))
    else some (.ok [pointList.getD 0 (0, 0), pointList.getD (pointList.length - 1) (0, 0)])

/-- Two consecutive kept indices `a < b` of `P`: every point strictly between them is within
`e` of the line through `P[a]` and `P[b]`. -/
def Within (sqrt : α → α) (P : List (Point α)) (e : α) (a b : Nat) : Prop :=
  a < b ∧ b < P.length ∧ ∀ k, a < k → k < b →
    PerpendicularDistance sqrt (P.getD k (0, 0)) (P.getD a (0, 0)) (P.getD b (0, 0)) ≤ e

/-- The list `idx` gives the indices of `P` that the output `out` keeps: it starts at `0`, ends
at the last index, consecutive entries are related by `Within`, and `out` is `P` read at
`idx`. -/
structure Kept (sqrt : α → α) (P : List (Point α)) (e : α) (out : List (Point α))
    (idx : List Nat) : Prop where
  head : idx.head? = some 0
  last : idx.getLast? = some (P.length - 1)
  chain : idx.Chain' (Within sqrt P e)
  out_eq : out = idx.map (fun i => P.getD i (0, 0))

/-- The first sub-polyline `firstLine` built on source line 73 for the scan result of
`pointList`. -/
def firstLineOf (sqrt : α → α) (pointList : List (Point α)) : List (Point α) :=
  pointList.take ((scan sqrt pointList (pointList.length - 1)).1 + 1)

end AuxDefs

/-! ## The scan loop -/

section Scan

variable {α : Type} [LinearOrderedField α]

theorem foldl_scan_post (d : Nat → α) (m : Nat) :
    ∀ (s : Nat) (st : Nat × α),
      ScanPost d s m st
        ((List.range' s m).foldl (fun st i => if d i > st.2 then (i, d i) else st) st) := by
  induction m with
  | zero =>
    intro s st
    left
    refine ⟨rfl, ?_⟩
    intro i h1 h2
    omega
  | succ m ih =>
    intro s st
    rw [List.range'_succ, List.foldl_cons]
    by_cases hd : d s > st.2
    · rw [if_pos hd]
      rcases ih (s + 1) (s, d s) with ⟨hr, hle⟩ | ⟨h1, h2, h3, h4, h5, h6⟩
      · right
        rw [hr]
        refine ⟨le_refl _, by omega, rfl, hd, ?_, ?_⟩
        · intro i h1 h2
          simp only at h2
          omega
        · intro i h1 h2
          rcases Nat.eq_or_lt_of_le h1 with h | h
          · subst h
            exact le_refl _
          · exact hle i h (by omega)
      · right
        simp only at h4
        refine ⟨by omega, by omega, h3, lt_trans hd h4, ?_, ?_⟩
        · intro i hi1 hi2
          rcases Nat.eq_or_lt_of_le hi1 with h | h
          · subst h
            exact h4
          · exact h5 i h hi2
        · intro i hi1 hi2
          rcases Nat.eq_or_lt_of_le hi1 with h | h
          · subst h
            exact le_of_lt h4
          · exact h6 i h (by omega)
    · rw [if_neg hd]
      have hd1 : d s ≤ st.2 := not_lt.mp hd
      rcases ih (s + 1) st with ⟨hr, hle⟩ | ⟨h1, h2, h3, h4, h5, h6⟩
      · left
        refine ⟨hr, ?_⟩
        intro i hi1 hi2
        rcases Nat.eq_or_lt_of_le hi1 with h | h
        · subst h
          exact hd1
        · exact hle i h (by omega)
      · right
        refine ⟨by omega, by omega, h3, h4, ?_, ?_⟩
        · intro i hi1 hi2
          rcases Nat.eq_or_lt_of_le hi1 with h | h
          · subst h
            exact lt_of_le_of_lt hd1 h4
          · exact h5 i h hi2
        · intro i hi1 hi2
          rcases Nat.eq_or_lt_of_le hi1 with h | h
          · subst h
            exact le_of_lt (lt_of_le_of_lt hd1 h4)
          · exact h6 i h (by omega)

theorem scan_eq_foldl (sqrt : α → α) (P : List (Point α)) (endRDP : Nat) :
    scan sqrt P endRDP = (List.range' 1 (endRDP - 1)).foldl
      (fun st i => if distAt sqrt P endRDP i > st.2 then (i, distAt sqrt P endRDP i) else st)
      (0, 0) := rfl

/-- What the scan loop returns: either nothing was selected (`index = 0`, `dmax = 0`, every
interior distance is at most `0`), or `index` is the first interior index whose distance is
the maximum `dmax > 0`. -/
theorem scan_spec (sqrt : α → α) (P : List (Point α)) (endRDP : Nat) :
    ((scan sqrt P endRDP).1 = 0 ∧ (scan sqrt P endRDP).2 = 0 ∧
        ∀ i, 1 ≤ i → i < endRDP → distAt sqrt P endRDP i ≤ 0) ∨
    (1 ≤ (scan sqrt P endRDP).1 ∧ (scan sqrt P endRDP).1 < endRDP ∧
      (scan sqrt P endRDP).2 = distAt sqrt P endRDP (scan sqrt P endRDP).1 ∧
      0 < (scan sqrt P endRDP).2 ∧
      (∀ i, 1 ≤ i → i < (scan sqrt P endRDP).1 →
        distAt sqrt P endRDP i < (scan sqrt P endRDP).2) ∧
      ∀ i, 1 ≤ i → i < endRDP → distAt sqrt P endRDP i ≤ (scan sqrt P endRDP).2) := by
  rw [scan_eq_foldl]
  rcases foldl_scan_post (distAt sqrt P endRDP) (endRDP - 1) 1 (0, 0) with
    ⟨hr, hle⟩ | ⟨h1, h2, h3, h4, h5, h6⟩
  · left
    rw [hr]
    refine ⟨rfl, rfl, ?_⟩
    intro i hi1 hi2
    exact hle i hi1 (by omega)
  · right
    refine ⟨h1, by omega, h3, h4, h5, ?_⟩
    intro i hi1 hi2
    exact h6 i hi1 (by omega)

theorem scan_index_lt (sqrt : α → α) (P : List (Point α)) (endRDP : Nat) (h : 1 ≤ endRDP) :
    (scan sqrt P endRDP).1 < endRDP := by
  rcases scan_spec sqrt P endRDP with ⟨h0, _, _⟩ | ⟨_, h2, _⟩
  · omega
  · exact h2

theorem scan_dmax_nonneg (sqrt : α → α) (P : List (Point α)) (endRDP : Nat) :
    0 ≤ (scan sqrt P endRDP).2 := by
  rcases scan_spec sqrt P endRDP with ⟨_, h0, _⟩ | ⟨_, _, _, h4, _⟩
  · exact le_of_eq h0.symm
  · exact le_of_lt h4

theorem scan_le_dmax (sqrt : α → α) (P : List (Point α)) (endRDP : Nat) (i : Nat)
    (h1 : 1 ≤ i) (h2 : i < endRDP) :
    distAt sqrt P endRDP i ≤ (scan sqrt P endRDP).2 := by
  rcases scan_spec sqrt P endRDP with ⟨_, h0, h⟩ | ⟨_, _, _, _, _, h⟩
  · rw [h0]
    exact h i h1 h2
  · exact h i h1 h2

/-- The scan result is determined by its specification: a first interior maximum that is
positive is what the loop returns. -/
theorem scan_unique (sqrt : α → α) (P : List (Point α)) (endRDP j : Nat) (m : α)
    (hj1 : 1 ≤ j) (hj2 : j < endRDP) (hm : m = distAt sqrt P endRDP j) (hpos : 0 < m)
    (hbefore : ∀ i, 1 ≤ i → i < j → distAt sqrt P endRDP i < m)
    (hall : ∀ i, 1 ≤ i → i < endRDP → distAt sqrt P endRDP i ≤ m) :
    scan sqrt P endRDP = (j, m) := by
  rcases scan_spec sqrt P endRDP with ⟨_, _, h⟩ | ⟨h1, h2, h3, _, h5, h6⟩
  · have := h j hj1 hj2
    rw [← hm] at this
    exact absurd hpos (not_lt.mpr this)
  · have hle1 : m ≤ (scan sqrt P endRDP).2 := by
      rw [hm]
      exact h6 j hj1 hj2
    have hle2 : (scan sqrt P endRDP).2 ≤ m := by
      rw [h3]
      exact hall _ h1 h2
    have heq : (scan sqrt P endRDP).2 = m := le_antisymm hle2 hle1
    have hidx : (scan sqrt P endRDP).1 = j := by
      rcases Nat.lt_trichotomy (scan sqrt P endRDP).1 j with hlt | heq1 | hgt
      · have := hbefore _ h1 hlt
        rw [← h3, heq] at this
        exact absurd this (lt_irrefl _)
      · exact heq1
      · have := h5 j hj1 hgt
        rw [← hm, heq] at this
        exact absurd this (lt_irrefl _)
    exact Prod.ext hidx heq

end Scan

/-! ## Fuel: the recursion always has enough -/

section Fuel

variable {α : Type} [LinearOrderedField α]

theorem RDPaux_succ_eq (sqrt : α → α) (fuel : Nat) (P : List (Point α)) (e : α) :
    RDPaux sqrt (fuel + 1) P e = RDPbody sqrt (fun Q => RDPaux sqrt fuel Q e) P e := rfl

theorem RDPbody_congr (sqrt : α → α)
    (c1 c2 : List (Point α) → Option (Except RDPError (List (Point α))))
    (P : List (Point α)) (e : α)
    (h1 : c1 (P.take ((scan sqrt P (P.length - 1)).1 + 1)) =
      c2 (P.take ((scan sqrt P (P.length - 1)).1 + 1)))
    (h2 : ∀ r, c1 (P.take ((scan sqrt P (P.length - 1)).1 + 1)) = some (.ok r) →
      c1 (P.drop (scan sqrt P (P.length - 1)).1) = c2 (P.drop (scan sqrt P (P.length - 1)).1)) :
    RDPbody sqrt c1 P e = RDPbody sqrt c2 P e := by
  unfold RDPbody
  split
  · rfl
  · split
    · rw [← h1]
      cases hc : c1 (P.take ((scan sqrt P (P.length - 1)).1 + 1)) with
      | none => rfl
      | some r =>
        cases r with
        | error err => rfl
        | ok r1 =>
          simp only
          rw [← h2 r1 hc]
    · rfl

theorem RDPaux_short (sqrt : α → α) (fuel : Nat) (P : List (Point α)) (e : α)
    (hfuel : 0 < fuel) (h : P.length < 2) :
    RDPaux sqrt fuel P e = some (.error .invalid_argument) := by
  cases fuel with
  | zero => omega
  | succ f =>
    rw [RDPaux_succ_eq]
    unfold RDPbody
    rw [if_pos h]

theorem length_firstLine (sqrt : α → α) (P : List (Point α)) (h : 2 ≤ P.length) :
    (P.take ((scan sqrt P (P.length - 1)).1 + 1)).length =
      (scan sqrt P (P.length - 1)).1 + 1 := by
  have := scan_index_lt sqrt P (P.length - 1) (by omega)
  rw [List.length_take]
  omega

theorem length_lastLine (sqrt : α → α) (P : List (Point α)) :
    (P.drop (scan sqrt P (P.length - 1)).1).length =
      P.length - (scan sqrt P (P.length - 1)).1 := List.length_drop _ _

/-- One more unit of fuel changes nothing once the fuel exceeds the number of points. -/
theorem RDPaux_succ (sqrt : α → α) (e : α) :
    ∀ (fuel : Nat) (P : List (Point α)), P.length < fuel →
      RDPaux sqrt (fuel + 1) P e = RDPaux sqrt fuel P e := by
  intro fuel
  induction fuel with
  | zero =>
    intro P h
    omega
  | succ f ih =>
    intro P h
    rw [RDPaux_succ_eq sqrt (f + 1), RDPaux_succ_eq sqrt f]
    by_cases hlen : P.length < 2
    · unfold RDPbody
      rw [if_pos hlen, if_pos hlen]
    · have hlen2 : 2 ≤ P.length := by omega
      have hidx := scan_index_lt sqrt P (P.length - 1) (by omega)
      have hl1 := length_firstLine sqrt P hlen2
      have hl2 := length_lastLine sqrt P
      apply RDPbody_congr
      · exact ih _ (by omega)
      · intro r hr
        by_cases h0 : (scan sqrt P (P.length - 1)).1 = 0
        · exfalso
          have hshort : (P.take ((scan sqrt P (P.length - 1)).1 + 1)).length < 2 := by omega
          simp only at hr
          rw [RDPaux_short sqrt (f + 1) _ e (by omega) hshort] at hr
          cases hr
        · exact ih _ (by omega)

theorem RDPaux_fuel_irrel (sqrt : α → α) (e : α) (P : List (Point α)) :
    ∀ (k : Nat), RDPaux sqrt (P.length + 1 + k) P e = RDPaux sqrt (P.length + 1) P e := by
  intro k
  induction k with
  | zero => rfl
  | succ k ih =>
    rw [← ih]
    exact RDPaux_succ sqrt e (P.length + 1 + k) P (by omega)

theorem RDPaux_eq_of_lt (sqrt : α → α) (e : α) (P : List (Point α)) (fuel : Nat)
    (h : P.length < fuel) : RDPaux sqrt fuel P e = RamerDouglasPeucker sqrt P e := by
  obtain ⟨k, hk⟩ : ∃ k, fuel = P.length + 1 + k := ⟨fuel - (P.length + 1), by omega⟩
  rw [hk]
  exact RDPaux_fuel_irrel sqrt e P k

/-- The defining equation of `RamerDouglasPeucker`, free of fuel: the body of the source
function, with the recursive calls being `RamerDouglasPeucker` itself. -/
theorem RamerDouglasPeucker_unfold (sqrt : α → α) (P : List (Point α)) (e : α) :
    RamerDouglasPeucker sqrt P e =
      RDPbody sqrt (fun Q => RamerDouglasPeucker sqrt Q e) P e := by
  show RDPaux sqrt (P.length + 1) P e = _
  rw [RDPaux_succ_eq]
  by_cases hlen : P.length < 2
  · unfold RDPbody
    rw [if_pos hlen, if_pos hlen]
  · have hlen2 : 2 ≤ P.length := by omega
    have hidx := scan_index_lt sqrt P (P.length - 1) (by omega)
    have hl1 := length_firstLine sqrt P hlen2
    have hl2 := length_lastLine sqrt P
    apply RDPbody_congr
    · exact RDPaux_eq_of_lt sqrt e _ _ (by omega)
    · intro r hr
      by_cases h0 : (scan sqrt P (P.length - 1)).1 = 0
      · exfalso
        have hshort : (P.take ((scan sqrt P (P.length - 1)).1 + 1)).length < 2 := by omega
        simp only at hr
        rw [RDPaux_short sqrt P.length _ e (by omega) hshort] at hr
        cases hr
      · exact RDPaux_eq_of_lt sqrt e _ _ (by omega)

end Fuel

/-! ## The kept indices -/

section Kept

variable {α : Type} [LinearOrderedField α]

theorem getD_take_of_lt (P : List (Point α)) (m k : Nat) (h : k < m) :
    (P.take m).getD k (0, 0) = P.getD k (0, 0) := by
  rw [List.getD_eq_getElem?_getD, List.getD_eq_getElem?_getD, List.getElem?_take_of_lt h]

theorem getD_drop (P : List (Point α)) (m k : Nat) :
    (P.drop m).getD k (0, 0) = P.getD (k + m) (0, 0) := by
  rw [List.getD_eq_getElem?_getD, List.getD_eq_getElem?_getD, List.getElem?_drop,
    Nat.add_comm]

theorem Within_of_take (sqrt : α → α) (P : List (Point α)) (e : α) (m a b : Nat)
    (h : Within sqrt (P.take m) e a b) : Within sqrt P e a b := by
  obtain ⟨hab, hb, hk⟩ := h
  rw [List.length_take] at hb
  have hbm : b < m := by omega
  refine ⟨hab, by omega, ?_⟩
  intro k h1 h2
  have := hk k h1 h2
  rwa [getD_take_of_lt P m k (by omega), getD_take_of_lt P m a (by omega),
    getD_take_of_lt P m b hbm] at this

theorem Within_of_drop (sqrt : α → α) (P : List (Point α)) (e : α) (m a b : Nat)
    (h : Within sqrt (P.drop m) e a b) : Within sqrt P e (a + m) (b + m) := by
  obtain ⟨hab, hb, hk⟩ := h
  rw [List.length_drop] at hb
  refine ⟨by omega, by omega, ?_⟩
  intro k h1 h2
  have := hk (k - m) (by omega) (by omega)
  rwa [getD_drop, getD_drop, getD_drop, Nat.sub_add_cancel (by omega)] at this

theorem chain_tail_bound (sqrt : α → α) (P : List (Point α)) (e : α) :
    ∀ (l : List Nat) (a : Nat), (a :: l).Chain' (Within sqrt P e) → ∀ i ∈ l, i < P.length := by
  intro l
  induction l with
  | nil =>
    intro a _ i hi
    cases hi
  | cons b l ih =>
    intro a h i hi
    rw [List.chain'_cons] at h
    rcases List.mem_cons.mp hi with rfl | hi
    · exact h.1.2.1
    · exact ih b h.2 i hi

theorem Kept.bound {sqrt : α → α} {P : List (Point α)} {e : α} {out : List (Point α)}
    {idx : List Nat} (h : Kept sqrt P e out idx) (hP : 0 < P.length) :
    ∀ i ∈ idx, i < P.length := by
  obtain ⟨t, rfl⟩ := List.head?_eq_some_iff.mp h.head
  intro i hi
  rcases List.mem_cons.mp hi with rfl | hi
  · exact hP
  · exact chain_tail_bound sqrt P e t 0 h.chain i hi

theorem Kept.sorted {sqrt : α → α} {P : List (Point α)} {e : α} {out : List (Point α)}
    {idx : List Nat} (h : Kept sqrt P e out idx) : idx.Pairwise (· < ·) :=
  List.chain'_iff_pairwise.mp (h.chain.imp (fun _ _ hab => hab.1))

theorem Kept.two_le {sqrt : α → α} {P : List (Point α)} {e : α} {out : List (Point α)}
    {idx : List Nat} (h : Kept sqrt P e out idx) (hP : 2 ≤ P.length) : 2 ≤ idx.length := by
  obtain ⟨t, rfl⟩ := List.head?_eq_some_iff.mp h.head
  have hl := h.last
  cases t with
  | nil =>
    simp at hl
    omega
  | cons b t => simp

theorem Kept.length_out {sqrt : α → α} {P : List (Point α)} {e : α} {out : List (Point α)}
    {idx : List Nat} (h : Kept sqrt P e out idx) : out.length = idx.length := by
  rw [h.out_eq, List.length_map]

/-- The base case: nothing between the two endpoints is farther than `e`. -/
theorem Kept_base (sqrt : α → α) (P : List (Point α)) (e : α) (hP : 2 ≤ P.length)
    (hd : ¬ (scan sqrt P (P.length - 1)).2 > e) :
    Kept sqrt P e [P.getD 0 (0, 0), P.getD (P.length - 1) (0, 0)] [0, P.length - 1] where
  head := rfl
  last := rfl
  chain := by
    rw [List.chain'_pair]
    refine ⟨by omega, by omega, ?_⟩
    intro k h1 h2
    exact le_trans (scan_le_dmax sqrt P (P.length - 1) k h1 h2) (not_lt.mp hd)
  out_eq := rfl

/-- The merge step: the kept indices of the two halves, glued at the split index. -/
theorem Kept_merge (sqrt : α → α) (P : List (Point α)) (e : α) (index : Nat)
    (h1 : 1 ≤ index) (h2 : index + 1 < P.length)
    (r1 r2 : List (Point α)) (idx1 idx2 : List Nat)
    (k1 : Kept sqrt (P.take (index + 1)) e r1 idx1)
    (k2 : Kept sqrt (P.drop index) e r2 idx2) :
    Kept sqrt P e (r1.dropLast ++ r2) (idx1 ++ idx2.tail.map (· + index)) := by
  have hlen1 : (P.take (index + 1)).length = index + 1 := by
    rw [List.length_take]
    omega
  have hlen2 : (P.drop index).length = P.length - index := List.length_drop _ _
  have hb1 := k1.bound (by omega)
  have htwo := k2.two_le (by omega)
  obtain ⟨head1, last1, chain1, out1⟩ := k1
  obtain ⟨head2, last2, chain2, out2⟩ := k2
  rw [hlen1, Nat.add_sub_cancel] at last1
  rw [hlen1] at hb1
  obtain ⟨l1, rfl⟩ := List.getLast?_eq_some_iff.mp last1
  obtain ⟨t2, rfl⟩ := List.head?_eq_some_iff.mp head2
  simp only [List.tail_cons]
  have ht2 : t2 ≠ [] := by
    intro h
    subst h
    simp at htwo
  have hc1 : List.Chain' (Within sqrt P e) (l1 ++ [index]) :=
    chain1.imp (fun a b hab => Within_of_take sqrt P e (index + 1) a b hab)
  have hc2 : List.Chain' (Within sqrt P e) ([index] ++ t2.map (· + index)) := by
    have := List.chain'_map_of_chain' (fun k => k + index)
      (fun a b hab => Within_of_drop sqrt P e index a b hab) chain2
    simpa using this
  refine ⟨?_, ?_, ?_, ?_⟩
  · rw [List.head?_append_of_ne_nil _ (by simp)]
    exact head1
  · have hl2 : t2.getLast? = some (P.length - index - 1) := by
      cases t2 with
      | nil => exact absurd rfl ht2
      | cons b t =>
        rw [List.getLast?_cons_cons, hlen2] at last2
        exact last2
    rw [List.getLast?_append_of_ne_nil _ (by simpa using ht2), List.getLast?_map, hl2]
    simp only [Option.map_some', Option.some.injEq]
    omega
  · exact List.Chain'.append_overlap hc1 hc2 (by simp)
  · rw [out1, out2]
    simp only [List.map_append, List.map_cons, List.map_nil, List.tail_cons, List.map_map]
    have e1 : List.map (fun i => (P.take (index + 1)).getD i (0, 0)) l1 =
        List.map (fun i => P.getD i (0, 0)) l1 := by
      apply List.map_congr_left
      intro i hi
      exact getD_take_of_lt P (index + 1) i (hb1 i (by simp [hi]))
    have e2 : (P.take (index + 1)).getD index (0, 0) = P.getD index (0, 0) :=
      getD_take_of_lt P (index + 1) index (by omega)
    have e3 : List.map (fun i => (P.drop index).getD i (0, 0)) t2 =
        List.map ((fun i => P.getD i (0, 0)) ∘ fun x => x + index) t2 := by
      apply List.map_congr_left
      intro i _
      exact getD_drop P index i
    have e4 : (P.drop index).getD 0 (0, 0) = P.getD index (0, 0) := by
      rw [getD_drop, Nat.zero_add]
    rw [e1, e2, e3, e4]
    simp

/-- Every call on at least two points with a non-negative tolerance returns normally, and its
output is `P` read at a chain of kept indices. -/
theorem RDP_kept (sqrt : α → α) (e : α) (he : 0 ≤ e) :
    ∀ (n : Nat) (P : List (Point α)), P.length = n → 2 ≤ P.length →
      ∃ out idx, RamerDouglasPeucker sqrt P e = some (.ok out) ∧ Kept sqrt P e out idx := by
  intro n
  induction n using Nat.strong_induction_on with
  | _ n ih =>
    intro P hn hP
    rw [RamerDouglasPeucker_unfold]
    unfold RDPbody
    rw [if_neg (by omega)]
    by_cases hd : (scan sqrt P (P.length - 1)).2 > e
    · rw [if_pos hd]
      have hpos : 0 < (scan sqrt P (P.length - 1)).2 := lt_of_le_of_lt he hd
      have hidx : 1 ≤ (scan sqrt P (P.length - 1)).1 ∧
          (scan sqrt P (P.length - 1)).1 < P.length - 1 := by
        rcases scan_spec sqrt P (P.length - 1) with ⟨_, h0, _⟩ | ⟨h1, h2, _⟩
        · rw [h0] at hpos
          exact absurd hpos (lt_irrefl _)
        · exact ⟨h1, h2⟩
      have hl1 := length_firstLine sqrt P hP
      have hl2 := length_lastLine sqrt P
      obtain ⟨r1, idx1, hr1, k1⟩ := ih _ (by omega)
        (P.take ((scan sqrt P (P.length - 1)).1 + 1)) rfl (by omega)
      obtain ⟨r2, idx2, hr2, k2⟩ := ih _ (by omega)
        (P.drop (scan sqrt P (P.length - 1)).1) rfl (by omega)
      simp only [hr1, hr2]
      have hk := Kept_merge sqrt P e _ hidx.1 (by omega) r1 r2 idx1 idx2 k1 k2
      have hlen : 2 ≤ (r1.dropLast ++ r2).length := by
        rw [hk.length_out]
        exact hk.two_le hP
      rw [if_neg (by omega)]
      exact ⟨_, _, rfl, hk⟩
    · rw [if_neg hd]
      exact ⟨_, _, rfl, Kept_base sqrt P e hP hd⟩

end Kept

/-! ## Contract of `RamerDouglasPeucker` over the reals -/

section Contract

theorem length_le_of_sorted_bound (idx : List Nat) (n : Nat) (hs : idx.Pairwise (· < ·))
    (hb : ∀ i ∈ idx, i < n) : idx.length ≤ n := by
  have hnd : idx.Nodup := hs.imp (fun h => Nat.ne_of_lt h)
  have hsub : idx ⊆ List.range n := fun i hi => List.mem_range.mpr (hb i hi)
  have := (hnd.subperm hsub).length_le
  simpa using this

theorem getLast?_eq_getD (P : List (Point ℝ)) (hP : 0 < P.length) :
    P.getLast? = some (P.getD (P.length - 1) (0, 0)) := by
  rw [List.getLast?_eq_getElem?, List.getD_eq_getElem?_getD,
    List.getElem?_eq_getElem (by omega)]
  rfl

theorem head?_eq_getD (P : List (Point ℝ)) (hP : 0 < P.length) :
    P.head? = some (P.getD 0 (0, 0)) := by
  cases P with
  | nil => simp at hP
  | cons a t => rfl

/-- C1: for every polyline `P` with at least 2 points and every `epsilon ≥ 0` (coordinates
exact reals), `RamerDouglasPeucker(P, epsilon)` returns an output whose length is at least 2
and at most the length of `P`. -/
theorem RamerDouglasPeucker_length_bounds (P : List (Point ℝ)) (epsilon : ℝ)
    (hP : 2 ≤ P.length) (he : 0 ≤ epsilon) :
    ∃ out, RamerDouglasPeucker Real.sqrt P epsilon = some (.ok out) ∧
      2 ≤ out.length ∧ out.length ≤ P.length := by
  obtain ⟨out, idx, hr, hk⟩ := RDP_kept Real.sqrt epsilon he P.length P rfl hP
  refine ⟨out, hr, ?_, ?_⟩
  · rw [hk.length_out]
    exact hk.two_le hP
  · rw [hk.length_out]
    exact length_le_of_sorted_bound idx P.length hk.sorted (hk.bound (by omega))

theorem RamerDouglasPeucker_length_bounds_witness :
    2 ≤ ([(0, 0), (1, 1), (2, 0)] : List (Point ℝ)).length ∧ (0 : ℝ) ≤ 1 ∧
    ∃ out, RamerDouglasPeucker Real.sqrt [(0, 0), (1, 1), (2, 0)] 1 = some (.ok out) ∧
      2 ≤ out.length ∧ out.length ≤ ([(0, 0), (1, 1), (2, 0)] : List (Point ℝ)).length :=
  ⟨by decide, by norm_num,
    RamerDouglasPeucker_length_bounds [(0, 0), (1, 1), (2, 0)] 1 (by decide) (by norm_num)⟩

/-- C2: for every polyline `P` with at least 2 points and every `epsilon ≥ 0`, the first point
of `RamerDouglasPeucker(P, epsilon)` is the first point of `P` and the last point of the
output is the last point of `P`. -/
theorem RamerDouglasPeucker_endpoints (P : List (Point ℝ)) (epsilon : ℝ)
    (hP : 2 ≤ P.length) (he : 0 ≤ epsilon) :
    ∃ out, RamerDouglasPeucker Real.sqrt P epsilon = some (.ok out) ∧
      out.head? = P.head? ∧ out.getLast? = P.getLast? := by
  obtain ⟨out, idx, hr, hk⟩ := RDP_kept Real.sqrt epsilon he P.length P rfl hP
  refine ⟨out, hr, ?_, ?_⟩
  · obtain ⟨t, ht⟩ := List.head?_eq_some_iff.mp hk.head
    rw [hk.out_eq, ht, head?_eq_getD P (by omega)]
    rfl
  · rw [hk.out_eq, List.getLast?_map, hk.last, getLast?_eq_getD P (by omega)]
    rfl

theorem RamerDouglasPeucker_endpoints_witness :
    2 ≤ ([(0, 0), (1, 1), (2, 0)] : List (Point ℝ)).length ∧ (0 : ℝ) ≤ 1 ∧
    ∃ out, RamerDouglasPeucker Real.sqrt [(0, 0), (1, 1), (2, 0)] 1 = some (.ok out) ∧
      out.head? = ([(0, 0), (1, 1), (2, 0)] : List (Point ℝ)).head? ∧
      out.getLast? = ([(0, 0), (1, 1), (2, 0)] : List (Point ℝ)).getLast? :=
  ⟨by decide, by norm_num,
    RamerDouglasPeucker_endpoints [(0, 0), (1, 1), (2, 0)] 1 (by decide) (by norm_num)⟩

/-- C3: for every polyline `P` with at least 2 points and every `epsilon ≥ 0`, the output of
`RamerDouglasPeucker(P, epsilon)` is an order-preserving subsequence of `P`: there is a
strictly increasing list `idx` of indices of `P` whose points, in order, are exactly the
output (so the split point shared by the two halves appears once). -/
theorem RamerDouglasPeucker_subsequence (P : List (Point ℝ)) (epsilon : ℝ)
    (hP : 2 ≤ P.length) (he : 0 ≤ epsilon) :
    ∃ (out : List (Point ℝ)) (idx : List Nat), RamerDouglasPeucker Real.sqrt P epsilon = some (.ok out) ∧
      idx.Pairwise (· < ·) ∧ (∀ i ∈ idx, i < P.length) ∧
      out = idx.map (fun i => P.getD i (0, 0)) := by
  obtain ⟨out, idx, hr, hk⟩ := RDP_kept Real.sqrt epsilon he P.length P rfl hP
  exact ⟨out, idx, hr, hk.sorted, hk.bound (by omega), hk.out_eq⟩

theorem RamerDouglasPeucker_subsequence_witness :
    2 ≤ ([(0, 0), (1, 1), (2, 0)] : List (Point ℝ)).length ∧ (0 : ℝ) ≤ 1 ∧
    ∃ (out : List (Point ℝ)) (idx : List Nat), RamerDouglasPeucker Real.sqrt [(0, 0), (1, 1), (2, 0)] 1 = some (.ok out) ∧
      idx.Pairwise (· < ·) ∧
      (∀ i ∈ idx, i < ([(0, 0), (1, 1), (2, 0)] : List (Point ℝ)).length) ∧
      out = idx.map (fun i => ([(0, 0), (1, 1), (2, 0)] : List (Point ℝ)).getD i (0, 0)) :=
  ⟨by decide, by norm_num,
    RamerDouglasPeucker_subsequence [(0, 0), (1, 1), (2, 0)] 1 (by decide) (by norm_num)⟩

theorem RDP_of_short {α : Type} [LinearOrderedField α] (sqrt : α → α) (P : List (Point α))
    (e : α) (h : P.length < 2) :
    RamerDouglasPeucker sqrt P e = some (.error .invalid_argument) :=
  RDPaux_short sqrt (P.length + 1) P e (by omega) h

/-- The split case of the defining equation, once both recursive calls are known. -/
theorem RDP_of_split {α : Type} [LinearOrderedField α] (sqrt : α → α) (P : List (Point α))
    (e : α) (hP : 2 ≤ P.length) (hd : (scan sqrt P (P.length - 1)).2 > e)
    (r1 r2 : List (Point α))
    (h1 : RamerDouglasPeucker sqrt (P.take ((scan sqrt P (P.length - 1)).1 + 1)) e =
      some (.ok r1))
    (h2 : RamerDouglasPeucker sqrt (P.drop (scan sqrt P (P.length - 1)).1) e = some (.ok r2))
    (hlen : 2 ≤ (r1.dropLast ++ r2).length) :
    RamerDouglasPeucker sqrt P e = some (.ok (r1.dropLast ++ r2)) := by
  rw [RamerDouglasPeucker_unfold]
  unfold RDPbody
  rw [if_neg (by omega), if_pos hd]
  simp only [h1, h2]
  rw [if_neg (by omega)]

theorem RDP_of_no_split {α : Type} [LinearOrderedField α] (sqrt : α → α) (P : List (Point α))
    (e : α) (hP : 2 ≤ P.length) (hd : ¬ (scan sqrt P (P.length - 1)).2 > e) :
    RamerDouglasPeucker sqrt P e =
      some (.ok [P.getD 0 (0, 0), P.getD (P.length - 1) (0, 0)]) := by
  rw [RamerDouglasPeucker_unfold]
  unfold RDPbody
  rw [if_neg (by omega), if_neg hd]

/-- With a non-negative tolerance a split index is interior. -/
theorem split_index_interior {α : Type} [LinearOrderedField α] (sqrt : α → α)
    (P : List (Point α)) (e : α) (he : 0 ≤ e) (hd : (scan sqrt P (P.length - 1)).2 > e) :
    1 ≤ (scan sqrt P (P.length - 1)).1 ∧ (scan sqrt P (P.length - 1)).1 < P.length - 1 := by
  have hpos : 0 < (scan sqrt P (P.length - 1)).2 := lt_of_le_of_lt he hd
  rcases scan_spec sqrt P (P.length - 1) with ⟨_, h0, _⟩ | ⟨h1, h2, _⟩
  · rw [h0] at hpos
    exact absurd hpos (lt_irrefl _)
  · exact ⟨h1, h2⟩

/-- The output for the larger tolerance is never longer. -/
theorem RDP_mono {α : Type} [LinearOrderedField α] (sqrt : α → α) (e1 e2 : α) (he1 : 0 ≤ e1)
    (he : e1 ≤ e2) :
    ∀ (n : Nat) (P : List (Point α)), P.length = n → 2 ≤ P.length →
      ∃ o1 o2, RamerDouglasPeucker sqrt P e1 = some (.ok o1) ∧
        RamerDouglasPeucker sqrt P e2 = some (.ok o2) ∧ 2 ≤ o2.length ∧
        o2.length ≤ o1.length := by
  intro n
  induction n using Nat.strong_induction_on with
  | _ n ih =>
    intro P hn hP
    by_cases hd2 : (scan sqrt P (P.length - 1)).2 > e2
    · have hd1 : (scan sqrt P (P.length - 1)).2 > e1 := lt_of_le_of_lt he hd2
      have hidx := split_index_interior sqrt P e1 he1 hd1
      have hl1 := length_firstLine sqrt P hP
      have hl2 := length_lastLine sqrt P
      obtain ⟨a1, a2, ha1, ha2, ha2len, hale⟩ := ih _ (by omega)
        (P.take ((scan sqrt P (P.length - 1)).1 + 1)) rfl (by omega)
      obtain ⟨b1, b2, hb1, hb2, hb2len, hble⟩ := ih _ (by omega)
        (P.drop (scan sqrt P (P.length - 1)).1) rfl (by omega)
      have hlen2 : (a2.dropLast ++ b2).length = a2.length - 1 + b2.length := by
        rw [List.length_append, List.length_dropLast]
      have hlen1 : (a1.dropLast ++ b1).length = a1.length - 1 + b1.length := by
        rw [List.length_append, List.length_dropLast]
      refine ⟨a1.dropLast ++ b1, a2.dropLast ++ b2,
        RDP_of_split sqrt P e1 hP hd1 a1 b1 ha1 hb1 (by omega),
        RDP_of_split sqrt P e2 hP hd2 a2 b2 ha2 hb2 (by omega), by omega, by omega⟩
    · obtain ⟨o1, idx, ho1, hk⟩ := RDP_kept sqrt e1 he1 P.length P rfl hP
      refine ⟨o1, _, ho1, RDP_of_no_split sqrt P e2 hP hd2, le_refl _, ?_⟩
      rw [hk.length_out]
      exact hk.two_le hP

/-- C5 (monotonicity): for every polyline `P` with at least 2 points and all tolerances
`0 ≤ e1 ≤ e2`, both calls return and the length of `RamerDouglasPeucker(P, e2)` is at most
the length of `RamerDouglasPeucker(P, e1)`. -/
theorem RamerDouglasPeucker_monotone (P : List (Point ℝ)) (e1 e2 : ℝ)
    (hP : 2 ≤ P.length) (he1 : 0 ≤ e1) (he : e1 ≤ e2) :
    ∃ o1 o2, RamerDouglasPeucker Real.sqrt P e1 = some (.ok o1) ∧
      RamerDouglasPeucker Real.sqrt P e2 = some (.ok o2) ∧ o2.length ≤ o1.length := by
  obtain ⟨o1, o2, h1, h2, _, hle⟩ := RDP_mono Real.sqrt e1 e2 he1 he P.length P rfl hP
  exact ⟨o1, o2, h1, h2, hle⟩

theorem RamerDouglasPeucker_monotone_witness :
    2 ≤ ([(0, 0), (1, 1), (2, 0)] : List (Point ℝ)).length ∧ (0 : ℝ) ≤ 0 ∧ (0 : ℝ) ≤ 2 ∧
    ∃ o1 o2, RamerDouglasPeucker Real.sqrt [(0, 0), (1, 1), (2, 0)] 0 = some (.ok o1) ∧
      RamerDouglasPeucker Real.sqrt [(0, 0), (1, 1), (2, 0)] 2 = some (.ok o2) ∧
      o2.length ≤ o1.length :=
  ⟨by decide, le_refl _, by norm_num,
    RamerDouglasPeucker_monotone [(0, 0), (1, 1), (2, 0)] 0 2 (by decide) (le_refl _)
      (by norm_num)⟩

/-- C10: for every `epsilon ≥ 0`, `RamerDouglasPeucker` throws `invalid_argument`
("Not enough points to simplify") if and only if the polyline has fewer than 2 points; it
throws it for the empty polyline and for the singleton `[(0,0)]`, and a polyline with at least
2 points gets a normal return, so no exception at all. -/
theorem RamerDouglasPeucker_invalid_argument_iff (P : List (Point ℝ)) (epsilon : ℝ)
    (he : 0 ≤ epsilon) :
    (RamerDouglasPeucker Real.sqrt P epsilon = some (.error .invalid_argument) ↔
      P.length < 2) ∧
    (2 ≤ P.length → ∃ out, RamerDouglasPeucker Real.sqrt P epsilon = some (.ok out)) ∧
    RamerDouglasPeucker Real.sqrt [] epsilon = some (.error .invalid_argument) ∧
    RamerDouglasPeucker Real.sqrt [(0, 0)] epsilon = some (.error .invalid_argument) := by
  have hok : 2 ≤ P.length → ∃ out, RamerDouglasPeucker Real.sqrt P epsilon = some (.ok out) := by
    intro hP
    obtain ⟨out, _, hr, _⟩ := RDP_kept Real.sqrt epsilon he P.length P rfl hP
    exact ⟨out, hr⟩
  refine ⟨⟨?_, fun h => RDP_of_short Real.sqrt P epsilon h⟩, hok,
    RDP_of_short Real.sqrt [] epsilon (by decide),
    RDP_of_short Real.sqrt [(0, 0)] epsilon (by decide)⟩
  intro herr
  by_contra hlen
  obtain ⟨out, hr⟩ := hok (by omega)
  rw [hr] at herr
  cases herr

theorem RamerDouglasPeucker_invalid_argument_iff_witness :
    (0 : ℝ) ≤ 1 ∧
    (RamerDouglasPeucker Real.sqrt [(3, 4)] 1 = some (.error .invalid_argument) ↔
      ([(3, 4)] : List (Point ℝ)).length < 2) ∧
    (2 ≤ ([(3, 4)] : List (Point ℝ)).length →
      ∃ out, RamerDouglasPeucker Real.sqrt [(3, 4)] 1 = some (.ok out)) ∧
    RamerDouglasPeucker Real.sqrt [] 1 = some (.error .invalid_argument) ∧
    RamerDouglasPeucker Real.sqrt [(0, 0)] 1 = some (.error .invalid_argument) :=
  ⟨by norm_num, RamerDouglasPeucker_invalid_argument_iff [(3, 4)] 1 (by norm_num)⟩

/-! ### Idempotence -/

theorem Kept.head_out {α : Type} [LinearOrderedField α] {sqrt : α → α} {P : List (Point α)}
    {e : α} {out : List (Point α)} {idx : List Nat} (h : Kept sqrt P e out idx) :
    out.head? = some (P.getD 0 (0, 0)) := by
  obtain ⟨t, ht⟩ := List.head?_eq_some_iff.mp h.head
  rw [h.out_eq, ht]
  rfl

theorem Kept.last_out {α : Type} [LinearOrderedField α] {sqrt : α → α} {P : List (Point α)}
    {e : α} {out : List (Point α)} {idx : List Nat} (h : Kept sqrt P e out idx) :
    out.getLast? = some (P.getD (P.length - 1) (0, 0)) := by
  rw [h.out_eq, List.getLast?_map, h.last]
  rfl

/-- An interior position of the output holds an interior point of the input. -/
theorem Kept.interior {α : Type} [LinearOrderedField α] {sqrt : α → α} {P : List (Point α)}
    {e : α} {out : List (Point α)} {idx : List Nat} (h : Kept sqrt P e out idx)
    (i : Nat) (h1 : 1 ≤ i) (h2 : i + 1 < out.length) :
    ∃ k, 1 ≤ k ∧ k + 1 < P.length ∧ out.getD i (0, 0) = P.getD k (0, 0) := by
  have hlen := h.length_out
  have hi : i < idx.length := by omega
  have hsorted := List.pairwise_iff_getElem.mp h.sorted
  have h0 : idx[0]? = some 0 := by
    rw [← List.head?_eq_getElem?]
    exact h.head
  have hlast : idx[idx.length - 1]? = some (P.length - 1) := by
    rw [← List.getLast?_eq_getElem?]
    exact h.last
  have h0e : idx[0] = 0 := by
    rw [List.getElem?_eq_getElem (by omega)] at h0
    exact Option.some.inj h0
  have hlaste : idx[idx.length - 1] = P.length - 1 := by
    rw [List.getElem?_eq_getElem (by omega)] at hlast
    exact Option.some.inj hlast
  have hlo := hsorted 0 i (by omega) hi (by omega)
  have hhi := hsorted i (idx.length - 1) hi (by omega) (by omega)
  rw [h0e] at hlo
  rw [hlaste] at hhi
  refine ⟨idx[i], hlo, by omega, ?_⟩
  rw [List.getD_eq_getElem out (0, 0) (by omega)]
  simp only [h.out_eq, List.getElem_map]

theorem scan_two {α : Type} [LinearOrderedField α] (sqrt : α → α) (a b : Point α) :
    scan sqrt [a, b] ([a, b].length - 1) = (0, 0) := rfl

/-- Scanning the merged output selects the position of the split point again, with the same
maximum. -/
theorem scan_merged {α : Type} [LinearOrderedField α] (sqrt : α → α) (P : List (Point α))
    (e : α) (he : 0 ≤ e) (hP : 2 ≤ P.length) (hd : (scan sqrt P (P.length - 1)).2 > e)
    (l1 t2 : List (Point α)) (idx1 idx2 idx : List Nat)
    (k1 : Kept sqrt (P.take ((scan sqrt P (P.length - 1)).1 + 1)) e
      (l1 ++ [P.getD (scan sqrt P (P.length - 1)).1 (0, 0)]) idx1)
    (k2 : Kept sqrt (P.drop (scan sqrt P (P.length - 1)).1) e
      (P.getD (scan sqrt P (P.length - 1)).1 (0, 0) :: t2) idx2)
    (k : Kept sqrt P e (l1 ++ P.getD (scan sqrt P (P.length - 1)).1 (0, 0) :: t2) idx) :
    scan sqrt (l1 ++ P.getD (scan sqrt P (P.length - 1)).1 (0, 0) :: t2)
        ((l1 ++ P.getD (scan sqrt P (P.length - 1)).1 (0, 0) :: t2).length - 1) =
      (l1.length, (scan sqrt P (P.length - 1)).2) := by
  have hidx := split_index_interior sqrt P e he hd
  have hl1 := length_firstLine sqrt P hP
  have hl2 := length_lastLine sqrt P
  have hlen1 := k1.two_le (by omega)
  rw [← k1.length_out] at hlen1
  have hlen2 := k2.two_le (by omega)
  rw [← k2.length_out] at hlen2
  simp only [List.length_append, List.length_cons, List.length_nil] at hlen1 hlen2
  have hpos : 0 < (scan sqrt P (P.length - 1)).2 := lt_of_le_of_lt he hd
  obtain ⟨hspec3, hspec5, hspec6⟩ :
      (scan sqrt P (P.length - 1)).2 =
        distAt sqrt P (P.length - 1) (scan sqrt P (P.length - 1)).1 ∧
      (∀ i, 1 ≤ i → i < (scan sqrt P (P.length - 1)).1 →
        distAt sqrt P (P.length - 1) i < (scan sqrt P (P.length - 1)).2) ∧
      ∀ i, 1 ≤ i → i < P.length - 1 →
        distAt sqrt P (P.length - 1) i ≤ (scan sqrt P (P.length - 1)).2 := by
    rcases scan_spec sqrt P (P.length - 1) with ⟨_, h0, _⟩ | ⟨_, _, h3, _, h5, h6⟩
    · rw [h0] at hpos
      exact absurd hpos (lt_irrefl _)
    · exact ⟨h3, h5, h6⟩
  -- the endpoints of the merged output are those of `P`
  have hQ0 : (l1 ++ P.getD (scan sqrt P (P.length - 1)).1 (0, 0) :: t2).getD 0 (0, 0) =
      P.getD 0 (0, 0) := by
    have := k.head_out
    rw [List.head?_eq_getElem?] at this
    rw [List.getD_eq_getElem?_getD, this]
    rfl
  have hQl : (l1 ++ P.getD (scan sqrt P (P.length - 1)).1 (0, 0) :: t2).getD
      ((l1 ++ P.getD (scan sqrt P (P.length - 1)).1 (0, 0) :: t2).length - 1) (0, 0) =
      P.getD (P.length - 1) (0, 0) := by
    have := k.last_out
    rw [List.getLast?_eq_getElem?] at this
    rw [List.getD_eq_getElem?_getD, this]
    rfl
  have hdist : ∀ i, distAt sqrt (l1 ++ P.getD (scan sqrt P (P.length - 1)).1 (0, 0) :: t2)
      ((l1 ++ P.getD (scan sqrt P (P.length - 1)).1 (0, 0) :: t2).length - 1) i =
      PerpendicularDistance sqrt
        ((l1 ++ P.getD (scan sqrt P (P.length - 1)).1 (0, 0) :: t2).getD i (0, 0))
        (P.getD 0 (0, 0)) (P.getD (P.length - 1) (0, 0)) := by
    intro i
    unfold distAt
    rw [hQ0, hQl]
  apply scan_unique
  · omega
  · simp only [List.length_append, List.length_cons]
    omega
  · rw [hdist, hspec3]
    unfold distAt
    congr 1
    rw [List.getD_append_right _ _ _ _ (le_refl _), Nat.sub_self]
    rfl
  · exact hpos
  · intro i hi1 hi2
    rw [hdist]
    have hget : (l1 ++ P.getD (scan sqrt P (P.length - 1)).1 (0, 0) :: t2).getD i (0, 0) =
        (l1 ++ [P.getD (scan sqrt P (P.length - 1)).1 (0, 0)]).getD i (0, 0) := by
      rw [List.getD_append _ _ _ _ hi2, List.getD_append _ _ _ _ hi2]
    obtain ⟨k', hk1, hk2, hk3⟩ := k1.interior i hi1
      (by simp only [List.length_append, List.length_cons, List.length_nil]; omega)
    rw [hget, hk3, getD_take_of_lt P _ k' (by omega)]
    exact hspec5 k' hk1 (by omega)
  · intro i hi1 hi2
    rw [hdist]
    obtain ⟨k', hk1, hk2, hk3⟩ := k.interior i hi1 (by omega)
    rw [hk3]
    exact hspec6 k' hk1 (by omega)

/-- Simplifying an output again returns it unchanged. -/
theorem RDP_idem {α : Type} [LinearOrderedField α] (sqrt : α → α) (e : α) (he : 0 ≤ e) :
    ∀ (n : Nat) (P : List (Point α)), P.length = n → 2 ≤ P.length →
      ∃ out idx, RamerDouglasPeucker sqrt P e = some (.ok out) ∧ Kept sqrt P e out idx ∧
        RamerDouglasPeucker sqrt out e = some (.ok out) := by
  intro n
  induction n using Nat.strong_induction_on with
  | _ n ih =>
    intro P hn hP
    by_cases hd : (scan sqrt P (P.length - 1)).2 > e
    · have hidx := split_index_interior sqrt P e he hd
      have hl1 := length_firstLine sqrt P hP
      have hl2 := length_lastLine sqrt P
      obtain ⟨r1, idx1, hr1, k1, hs1⟩ := ih _ (by omega)
        (P.take ((scan sqrt P (P.length - 1)).1 + 1)) rfl (by omega)
      obtain ⟨r2, idx2, hr2, k2, hs2⟩ := ih _ (by omega)
        (P.drop (scan sqrt P (P.length - 1)).1) rfl (by omega)
      have hk := Kept_merge sqrt P e _ hidx.1 (by omega) r1 r2 idx1 idx2 k1 k2
      have hlen : 2 ≤ (r1.dropLast ++ r2).length := by
        rw [hk.length_out]
        exact hk.two_le hP
      refine ⟨_, _, RDP_of_split sqrt P e hP hd r1 r2 hr1 hr2 hlen, hk, ?_⟩
      -- shapes of the two partial results around the shared split point
      have hlast1 := k1.last_out
      rw [hl1, Nat.add_sub_cancel, getD_take_of_lt P _ _ (by omega)] at hlast1
      have hhead2 := k2.head_out
      rw [getD_drop, Nat.zero_add] at hhead2
      obtain ⟨l1, rfl⟩ := List.getLast?_eq_some_iff.mp hlast1
      obtain ⟨t2, rfl⟩ := List.head?_eq_some_iff.mp hhead2
      rw [List.dropLast_concat] at hk hlen ⊢
      have hscan := scan_merged sqrt P e he hP hd l1 t2 idx1 idx2 _ k1 k2 hk
      have hd' : (scan sqrt (l1 ++ P.getD (scan sqrt P (P.length - 1)).1 (0, 0) :: t2)
          ((l1 ++ P.getD (scan sqrt P (P.length - 1)).1 (0, 0) :: t2).length - 1)).2 > e := by
        rw [hscan]
        exact hd
      have htake : (l1 ++ P.getD (scan sqrt P (P.length - 1)).1 (0, 0) :: t2).take
          ((scan sqrt (l1 ++ P.getD (scan sqrt P (P.length - 1)).1 (0, 0) :: t2)
            ((l1 ++ P.getD (scan sqrt P (P.length - 1)).1 (0, 0) :: t2).length - 1)).1 + 1) =
          l1 ++ [P.getD (scan sqrt P (P.length - 1)).1 (0, 0)] := by
        rw [hscan]
        simp [List.take_append_eq_append_take]
      have hdrop : (l1 ++ P.getD (scan sqrt P (P.length - 1)).1 (0, 0) :: t2).drop
          (scan sqrt (l1 ++ P.getD (scan sqrt P (P.length - 1)).1 (0, 0) :: t2)
            ((l1 ++ P.getD (scan sqrt P (P.length - 1)).1 (0, 0) :: t2).length - 1)).1 =
          P.getD (scan sqrt P (P.length - 1)).1 (0, 0) :: t2 := by
        rw [hscan]
        simp
      have := RDP_of_split sqrt _ e hlen hd'
        (l1 ++ [P.getD (scan sqrt P (P.length - 1)).1 (0, 0)])
        (P.getD (scan sqrt P (P.length - 1)).1 (0, 0) :: t2)
        (by rw [htake]; exact hs1) (by rw [hdrop]; exact hs2)
        (by rw [List.dropLast_concat]; exact hlen)
      rw [List.dropLast_concat] at this
      exact this
    · refine ⟨_, _, RDP_of_no_split sqrt P e hP hd, Kept_base sqrt P e hP hd, ?_⟩
      have hns : ¬ (scan sqrt [P.getD 0 (0, 0), P.getD (P.length - 1) (0, 0)]
          ([P.getD 0 (0, 0), P.getD (P.length - 1) (0, 0)].length - 1)).2 > e := by
        rw [scan_two]
        exact not_lt.mpr he
      exact RDP_of_no_split sqrt _ e (le_refl _) hns

/-- C6 (idempotence): for every polyline `P` with at least 2 points and every `e ≥ 0`,
simplifying the simplified output again at the same tolerance yields the same points:
`RamerDouglasPeucker(RamerDouglasPeucker(P, e), e) = RamerDouglasPeucker(P, e)`. -/
theorem RamerDouglasPeucker_idempotent (P : List (Point ℝ)) (e : ℝ)
    (hP : 2 ≤ P.length) (he : 0 ≤ e) :
    ∃ out, RamerDouglasPeucker Real.sqrt P e = some (.ok out) ∧
      RamerDouglasPeucker Real.sqrt out e = some (.ok out) := by
  obtain ⟨out, _, h1, _, h2⟩ := RDP_idem Real.sqrt e he P.length P rfl hP
  exact ⟨out, h1, h2⟩

theorem RamerDouglasPeucker_idempotent_witness :
    2 ≤ ([(0, 0), (1, 1), (2, 0)] : List (Point ℝ)).length ∧ (0 : ℝ) ≤ 1 ∧
    ∃ out, RamerDouglasPeucker Real.sqrt [(0, 0), (1, 1), (2, 0)] 1 = some (.ok out) ∧
      RamerDouglasPeucker Real.sqrt out 1 = some (.ok out) :=
  ⟨by decide, by norm_num,
    RamerDouglasPeucker_idempotent [(0, 0), (1, 1), (2, 0)] 1 (by decide) (by norm_num)⟩

end Contract

/-! ## The static partition of `main` -/

section Partition

theorem range'_glue (s m n t : Nat) (h : t = s + m) :
    List.range' s m ++ List.range' t n = List.range' s (m + n) := by
  subst h
  rw [List.range'_append_1, Nat.add_comm]

theorem processedIndices_one (N : Nat) : processedIndices N 1 = List.range N := by
  simp [processedIndices, workerIndices, List.range_succ, List.range_eq_range']

theorem processedIndices_four (N : Nat) : processedIndices N 4 = List.range N := by
  have hc : 4 * (N / 4) ≤ N := Nat.mul_div_le N 4
  have hr : List.range' 0 (N / 4) ++ (List.range' (N / 4) (N / 4) ++
      (List.range' (2 * (N / 4)) (N / 4) ++ (List.range' (3 * (N / 4)) (N / 4) ++
        List.range' (4 * (N / 4)) (N - 4 * (N / 4))))) = List.range' 0 N := by
    rw [range'_glue (3 * (N / 4)) (N / 4) _ (4 * (N / 4)) (by omega),
      range'_glue (2 * (N / 4)) (N / 4) _ (3 * (N / 4)) (by omega),
      range'_glue (N / 4) (N / 4) _ (2 * (N / 4)) (by omega),
      range'_glue 0 (N / 4) _ (N / 4) (by omega)]
    congr 1
    omega
  rw [List.range_eq_range', ← hr]
  by_cases h : 3 * (N / 4) + N / 4 < N
  · simp [processedIndices, workerIndices, List.range_succ, h]
  · have h0 : N - 4 * (N / 4) = 0 := by omega
    simp [processedIndices, workerIndices, List.range_succ, h, h0]

theorem processedIndices_two (N : Nat) :
    processedIndices N 2 =
      List.range' 0 (2 * (N / 2)) ++ List.range' (4 * (N / 2)) (N - 4 * (N / 2)) := by
  have hc : 2 * (N / 2) ≤ N := Nat.mul_div_le N 2
  have hr : List.range' 0 (N / 2) ++ List.range' (N / 2) (N / 2) =
      List.range' 0 (2 * (N / 2)) := by
    rw [range'_glue 0 (N / 2) _ (N / 2) (by omega)]
    congr 1
    omega
  rw [← hr]
  by_cases h : N / 2 + N / 2 < N
  · simp [processedIndices, workerIndices, List.range_succ, h]
  · have h0 : N - 4 * (N / 2) = 0 := by omega
    simp [processedIndices, workerIndices, List.range_succ, h, h0]

/-- Every processed index is an index of the batch, for the supported worker counts. -/
theorem processedIndices_lt (N w : Nat) (hw : w = 1 ∨ w = 2 ∨ w = 4) :
    ∀ k ∈ processedIndices N w, k < N := by
  intro k hk
  rcases hw with rfl | rfl | rfl
  · rw [processedIndices_one] at hk
    exact List.mem_range.mp hk
  · rw [processedIndices_two] at hk
    have hc : 2 * (N / 2) ≤ N := Nat.mul_div_le N 2
    rcases List.mem_append.mp hk with h | h
    · have := List.mem_range'_1.mp h
      omega
    · have := List.mem_range'_1.mp h
      omega
  · rw [processedIndices_four] at hk
    exact List.mem_range.mp hk

theorem getD_set_self {β : Type} (S : List β) (k : Nat) (r d : β) (hk : k < S.length) :
    (S.set k r).getD k d = r := by
  rw [List.getD_eq_getElem?_getD, List.getElem?_set_self hk]
  rfl

theorem getD_set_ne {β : Type} (S : List β) (k i : Nat) (r d : β) (hne : k ≠ i) :
    (S.set k r).getD i d = S.getD i d := by
  rw [List.getD_eq_getElem?_getD, List.getD_eq_getElem?_getD, List.getElem?_set_ne hne]

/-- Running the calls for the indices `l` in order: every slot named in `l` ends up holding
the output of `RamerDouglasPeucker` for that index, every other slot is untouched. -/
theorem foldlM_simplifyInto {α : Type} [LinearOrderedField α] (sqrt : α → α)
    (B : List (List (Point α))) (e : α) (he : 0 ≤ e)
    (hB : ∀ k, k < B.length → 2 ≤ (B.getD k []).length) :
    ∀ (l : List Nat) (S : List (List (Point α))), S.length = B.length →
      (∀ k ∈ l, k < B.length) →
      ∃ out, l.foldlM (simplifyInto sqrt B e) S = some out ∧ out.length = B.length ∧
        ∀ i, i < B.length →
          (i ∈ l → RamerDouglasPeucker sqrt (B.getD i []) e = some (.ok (out.getD i []))) ∧
          (i ∉ l → out.getD i [] = S.getD i []) := by
  intro l
  induction l with
  | nil =>
    intro S hS _
    refine ⟨S, rfl, hS, ?_⟩
    intro i _
    exact ⟨fun h => absurd h (List.not_mem_nil i), fun _ => rfl⟩
  | cons k l ih =>
    intro S hS hl
    have hk : k < B.length := hl k (List.mem_cons_self k l)
    obtain ⟨r, _, hr, _⟩ := RDP_kept sqrt e he _ (B.getD k []) rfl (hB k hk)
    have hstep : simplifyInto sqrt B e S k = some (S.set k r) := by
      unfold simplifyInto
      rw [hr]
    obtain ⟨out, hout, hlen, hspec⟩ := ih (S.set k r) (by rw [List.length_set]; exact hS)
      (fun j hj => hl j (List.mem_cons_of_mem k hj))
    refine ⟨out, ?_, hlen, ?_⟩
    · rw [List.foldlM_cons, hstep]
      exact hout
    · intro i hi
      constructor
      · intro hmem
        by_cases hil : i ∈ l
        · exact (hspec i hi).1 hil
        · have hik : i = k := by
            rcases List.mem_cons.mp hmem with h | h
            · exact h
            · exact absurd h hil
          subst hik
          rw [(hspec i hi).2 hil, getD_set_self S i r [] (by omega)]
          exact hr
      · intro hnmem
        have hil : i ∉ l := fun h => hnmem (List.mem_cons_of_mem k h)
        have hik : k ≠ i := fun h => hnmem (h ▸ List.mem_cons_self k l)
        rw [(hspec i hi).2 hil, getD_set_ne S k i r [] hik]

/-- What the parallel region leaves in `SimplifiedAllPolylines`: the run ends normally, a
processed slot holds the simplified polyline and an unprocessed slot still holds the copy of
the input polyline. -/
theorem runBatch_spec {α : Type} [LinearOrderedField α] (sqrt : α → α)
    (B : List (List (Point α))) (e : α) (w : Nat) (he : 0 ≤ e)
    (hw : w = 1 ∨ w = 2 ∨ w = 4) (hB : ∀ k, k < B.length → 2 ≤ (B.getD k []).length) :
    ∃ out, runBatch sqrt B e w = some out ∧ out.length = B.length ∧
      ∀ i, i < B.length →
        (i ∈ processedIndices B.length w →
          RamerDouglasPeucker sqrt (B.getD i []) e = some (.ok (out.getD i []))) ∧
        (i ∉ processedIndices B.length w → out.getD i [] = B.getD i []) :=
  foldlM_simplifyInto sqrt B e he hB _ B rfl (processedIndices_lt B.length w hw)

theorem PerpendicularDistance_mid :
    PerpendicularDistance Real.sqrt ((1, 0) : Point ℝ) (0, 0) (2, 0) = 0 := by
  have h4 : Real.sqrt ((2 : ℝ) * 2) = 2 := Real.sqrt_mul_self (by norm_num)
  simp [PerpendicularDistance, h4]

theorem RDP_collinear :
    RamerDouglasPeucker Real.sqrt [(0, 0), (1, 0), (2, 0)] 1 = some (.ok [(0, 0), (2, 0)]) := by
  have hscan : scan Real.sqrt ([(0, 0), (1, 0), (2, 0)] : List (Point ℝ))
      (([(0, 0), (1, 0), (2, 0)] : List (Point ℝ)).length - 1) = (0, 0) := by
    have hstep : scan Real.sqrt ([(0, 0), (1, 0), (2, 0)] : List (Point ℝ))
        (([(0, 0), (1, 0), (2, 0)] : List (Point ℝ)).length - 1) =
        if PerpendicularDistance Real.sqrt ((1, 0) : Point ℝ) (0, 0) (2, 0) > 0 then
          (1, PerpendicularDistance Real.sqrt ((1, 0) : Point ℝ) (0, 0) (2, 0))
        else (0, 0) := rfl
    rw [hstep, PerpendicularDistance_mid, if_neg (lt_irrefl _)]
  have hns : ¬ (scan Real.sqrt ([(0, 0), (1, 0), (2, 0)] : List (Point ℝ))
      (([(0, 0), (1, 0), (2, 0)] : List (Point ℝ)).length - 1)).2 > 1 := by
    rw [hscan]
    norm_num
  exact RDP_of_no_split Real.sqrt _ 1 (by decide) hns

/-- C7, evaluated on the code: with 2 workers and a batch of 3 polylines the run ends
normally, the slots 0 and 1 hold the simplified polylines, and slot 2 still holds the input
polyline `[(0,0),(1,0),(2,0)]`, whereas `RamerDouglasPeucker` of it at tolerance `1` is
`[(0,0),(2,0)]`: the remainder loop starts at `4 * workload_number = 4`, past the end. -/
theorem runBatch_two_workers_skips_last :
    runBatch Real.sqrt
        [[(0, 0), (1, 0), (2, 0)], [(0, 0), (1, 0), (2, 0)], [(0, 0), (1, 0), (2, 0)]] 1 2 =
      some [[(0, 0), (2, 0)], [(0, 0), (2, 0)], [(0, 0), (1, 0), (2, 0)]] ∧
    RamerDouglasPeucker Real.sqrt [(0, 0), (1, 0), (2, 0)] 1 = some (.ok [(0, 0), (2, 0)]) ∧
    some (Except.ok (([[(0, 0), (2, 0)], [(0, 0), (2, 0)], [(0, 0), (1, 0), (2, 0)]] :
      List (List (Point ℝ))).getD 2 [])) ≠
        RamerDouglasPeucker Real.sqrt [(0, 0), (1, 0), (2, 0)] 1 := by
  have hidx : processedIndices 3 2 = [0, 1] := by decide
  refine ⟨?_, RDP_collinear, ?_⟩
  · simp [-Prod.mk_zero_zero, runBatch, hidx, simplifyInto, RDP_collinear]
  · rw [RDP_collinear]
    simp

/-- C8, evaluated on the code: with 2 workers and 3 polylines the workers process the
indices `0` and `1` only; index `2` is covered by no main range and the remainder loop,
restarting at `4 * workload_number = 4`, does not reach it. -/
theorem processedIndices_three_two :
    processedIndices 3 2 = [0, 1] ∧ (processedIndices 3 2).count 2 = 0 := by
  decide

/-- C9: with 4 workers and any batch size `N`, the four main ranges `[i*c, i*c + c)`,
`c = N / 4`, followed by the remainder loop starting at `4*c`, visit exactly the indices
`0, ..., N-1`, each of them once (so one worker, once) and nothing else; for `N = 5` the
visited indices are `0,1,2,3,4`. -/
theorem partition_four_workers_exactly_once (N : Nat) :
    processedIndices N 4 = List.range N ∧
    (∀ k, k < N → (processedIndices N 4).count k = 1) ∧
    (∀ k, N ≤ k → (processedIndices N 4).count k = 0) ∧
    processedIndices 5 4 = [0, 1, 2, 3, 4] := by
  refine ⟨processedIndices_four N, ?_, ?_, by decide⟩
  · intro k hk
    rw [processedIndices_four]
    exact List.count_eq_one_of_mem (List.nodup_range N) (List.mem_range.mpr hk)
  · intro k hk
    rw [processedIndices_four]
    exact List.count_eq_zero_of_not_mem (by simp [List.mem_range]; omega)

end Partition

/-! ## `PerpendicularDistance` over the reals -/

section Geometry

theorem PerpendicularDistance_nonneg (pt a b : Point ℝ) :
    0 ≤ PerpendicularDistance Real.sqrt pt a b := Real.sqrt_nonneg _

/-- For two distinct line points the result is the cross product of the direction and the
vector to `pt`, in absolute value, over the length of the direction. -/
theorem PerpendicularDistance_line (pt a b : Point ℝ) (hab : a ≠ b) :
    PerpendicularDistance Real.sqrt pt a b =
      |(b.1 - a.1) * (pt.2 - a.2) - (b.2 - a.2) * (pt.1 - a.1)| /
        Real.sqrt ((b.1 - a.1) ^ 2 + (b.2 - a.2) ^ 2) := by
  have hne : b.1 - a.1 ≠ 0 ∨ b.2 - a.2 ≠ 0 := by
    by_contra hcon
    push_neg at hcon
    apply hab
    exact Prod.ext (sub_eq_zero.mp hcon.1).symm (sub_eq_zero.mp hcon.2).symm
  have hpos : 0 < (b.1 - a.1) * (b.1 - a.1) + (b.2 - a.2) * (b.2 - a.2) := by
    rcases hne with h | h
    · have := mul_self_pos.mpr h
      have := mul_self_nonneg (b.2 - a.2)
      linarith
    · have := mul_self_pos.mpr h
      have := mul_self_nonneg (b.1 - a.1)
      linarith
  have hmag : Real.sqrt ((b.1 - a.1) * (b.1 - a.1) + (b.2 - a.2) * (b.2 - a.2)) > 0 :=
    Real.sqrt_pos.mpr hpos
  have hm2 := Real.mul_self_sqrt (le_of_lt hpos)
  have hsq : (b.1 - a.1) ^ 2 + (b.2 - a.2) ^ 2 =
      (b.1 - a.1) * (b.1 - a.1) + (b.2 - a.2) * (b.2 - a.2) := by ring
  unfold PerpendicularDistance
  simp only [if_pos hmag]
  rw [hsq]
  generalize hm : Real.sqrt ((b.1 - a.1) * (b.1 - a.1) + (b.2 - a.2) * (b.2 - a.2)) = m
    at hmag hm2 ⊢
  have hm0 : m ≠ 0 := ne_of_gt hmag
  have hu : (b.1 - a.1) / m * ((b.1 - a.1) / m) + (b.2 - a.2) / m * ((b.2 - a.2) / m) = 1 := by
    field_simp
    linarith
  have hcross : ((b.1 - a.1) * (pt.2 - a.2) - (b.2 - a.2) * (pt.1 - a.1)) / m =
      (b.1 - a.1) / m * (pt.2 - a.2) - (b.2 - a.2) / m * (pt.1 - a.1) := by ring
  rw [← abs_of_pos hmag, ← abs_div, abs_of_pos hmag, ← Real.sqrt_sq_eq_abs, hcross]
  congr 1
  linear_combination
    (-((pt.1 - a.1) * (pt.1 - a.1) + (pt.2 - a.2) * (pt.2 - a.2) -
      ((b.1 - a.1) / m * (pt.1 - a.1) + (b.2 - a.2) / m * (pt.2 - a.2)) ^ 2)) * hu

/-- C11: for all points `pt`, `a`, `b` with `a ≠ b` (exact reals),
`PerpendicularDistance(pt, a, b)` is non-negative and equals the distance from `pt` to the
infinite line through `a` and `b`,
`|(b.x - a.x)*(pt.y - a.y) - (b.y - a.y)*(pt.x - a.x)| / sqrt((b.x - a.x)^2 + (b.y - a.y)^2)`;
it does not clamp to the segment: the point `(3,1)`, past the end of the segment from `(0,0)`
to `(1,0)`, gets the distance `1` to the line. -/
theorem PerpendicularDistance_eq_line_distance (pt a b : Point ℝ) (hab : a ≠ b) :
    0 ≤ PerpendicularDistance Real.sqrt pt a b ∧
    PerpendicularDistance Real.sqrt pt a b =
      |(b.1 - a.1) * (pt.2 - a.2) - (b.2 - a.2) * (pt.1 - a.1)| /
        Real.sqrt ((b.1 - a.1) ^ 2 + (b.2 - a.2) ^ 2) ∧
    PerpendicularDistance Real.sqrt ((3, 1) : Point ℝ) (0, 0) (1, 0) = 1 := by
  refine ⟨PerpendicularDistance_nonneg pt a b, PerpendicularDistance_line pt a b hab, ?_⟩
  have hne : ((0, 0) : Point ℝ) ≠ (1, 0) := by
    intro h
    have h1 := congrArg Prod.fst h
    norm_num at h1
  rw [PerpendicularDistance_line _ _ _ hne]
  norm_num

theorem PerpendicularDistance_eq_line_distance_witness :
    ((0, 0) : Point ℝ) ≠ (3, 0) ∧
    0 ≤ PerpendicularDistance Real.sqrt ((1, 2) : Point ℝ) (0, 0) (3, 0) ∧
    PerpendicularDistance Real.sqrt ((1, 2) : Point ℝ) (0, 0) (3, 0) =
      |(((3, 0) : Point ℝ).1 - ((0, 0) : Point ℝ).1) *
          (((1, 2) : Point ℝ).2 - ((0, 0) : Point ℝ).2) -
        (((3, 0) : Point ℝ).2 - ((0, 0) : Point ℝ).2) *
          (((1, 2) : Point ℝ).1 - ((0, 0) : Point ℝ).1)| /
        Real.sqrt ((((3, 0) : Point ℝ).1 - ((0, 0) : Point ℝ).1) ^ 2 +
          (((3, 0) : Point ℝ).2 - ((0, 0) : Point ℝ).2) ^ 2) ∧
    PerpendicularDistance Real.sqrt ((3, 1) : Point ℝ) (0, 0) (1, 0) = 1 :=
  ⟨fun h => by norm_num [Prod.ext_iff] at h,
    PerpendicularDistance_eq_line_distance (1, 2) (0, 0) (3, 0)
      (fun h => by norm_num [Prod.ext_iff] at h)⟩

end Geometry

/-! ## The two branches of `RamerDouglasPeucker` -/

section Branches

/-- A two-point polyline is returned unchanged. -/
theorem RDP_pair {α : Type} [LinearOrderedField α] (sqrt : α → α) (a b : Point α) (e : α)
    (he : 0 ≤ e) : RamerDouglasPeucker sqrt [a, b] e = some (.ok [a, b]) := by
  have hns : ¬ (scan sqrt [a, b] ([a, b].length - 1)).2 > e := by
    rw [scan_two]
    exact not_lt.mpr he
  exact RDP_of_no_split sqrt [a, b] e (le_refl _) hns

/-- The split case with the scan result named. -/
theorem RDP_of_split_at {α : Type} [LinearOrderedField α] (sqrt : α → α) (P : List (Point α))
    (e : α) (j : Nat) (m : α) (hP : 2 ≤ P.length)
    (hscan : scan sqrt P (P.length - 1) = (j, m)) (hm : m > e) (r1 r2 : List (Point α))
    (h1 : RamerDouglasPeucker sqrt (P.take (j + 1)) e = some (.ok r1))
    (h2 : RamerDouglasPeucker sqrt (P.drop j) e = some (.ok r2))
    (hlen : 2 ≤ (r1.dropLast ++ r2).length) :
    RamerDouglasPeucker sqrt P e = some (.ok (r1.dropLast ++ r2)) := by
  apply RDP_of_split sqrt P e hP
  · rw [hscan]
    exact hm
  · rw [hscan]
    exact h1
  · rw [hscan]
    exact h2
  · exact hlen

theorem sqrt_hundred : Real.sqrt ((10 : ℝ) ^ 2 + 0 ^ 2) = 10 := by
  rw [show ((10 : ℝ) ^ 2 + 0 ^ 2) = 10 ^ 2 by norm_num]
  exact Real.sqrt_sq (by norm_num)

/-- The corner `(0,10)` is at distance `10` from the line through `(0,0)` and `(10,0)`. -/
theorem square_dist_one :
    PerpendicularDistance Real.sqrt ((0, 10) : Point ℝ) (0, 0) (10, 0) = 10 := by
  have hne : ((0, 0) : Point ℝ) ≠ (10, 0) := fun h => by norm_num [Prod.ext_iff] at h
  rw [PerpendicularDistance_line _ _ _ hne]
  simp only [sub_zero, zero_mul]
  rw [sqrt_hundred]
  norm_num

/-- The corner `(10,10)` is at distance `10` from the same line: a tie. -/
theorem square_dist_two :
    PerpendicularDistance Real.sqrt ((10, 10) : Point ℝ) (0, 0) (10, 0) = 10 := by
  have hne : ((0, 0) : Point ℝ) ≠ (10, 0) := fun h => by norm_num [Prod.ext_iff] at h
  rw [PerpendicularDistance_line _ _ _ hne]
  simp only [sub_zero, zero_mul]
  rw [sqrt_hundred]
  norm_num

/-- The corner `(10,10)` is farther than `0.01` from the line through `(0,10)` and `(10,0)`. -/
theorem square_dist_diag :
    PerpendicularDistance Real.sqrt ((10, 10) : Point ℝ) (0, 10) (10, 0) > 0.01 := by
  have hne : ((0, 10) : Point ℝ) ≠ (10, 0) := fun h => by norm_num [Prod.ext_iff] at h
  rw [PerpendicularDistance_line _ _ _ hne]
  have hs : Real.sqrt ((10 - 0 : ℝ) ^ 2 + (0 - 10) ^ 2) < 15 := by
    rw [Real.sqrt_lt' (by norm_num)]
    norm_num
  have hs0 : 0 < Real.sqrt ((10 - 0 : ℝ) ^ 2 + (0 - 10) ^ 2) :=
    Real.sqrt_pos.mpr (by norm_num)
  have habs : |((10 : ℝ) - 0) * (10 - 10) - (0 - 10) * (10 - 0)| = 100 := by norm_num
  show (0.01 : ℝ) < |((10 : ℝ) - 0) * (10 - 10) - (0 - 10) * (10 - 0)| /
    Real.sqrt ((10 - 0 : ℝ) ^ 2 + (0 - 10) ^ 2)
  rw [habs]
  generalize Real.sqrt ((10 - 0 : ℝ) ^ 2 + (0 - 10) ^ 2) = r at hs hs0 ⊢
  rw [lt_div_iff₀ hs0, show (0.01 : ℝ) = 1 / 100 by norm_num]
  linarith

theorem square_scan :
    scan Real.sqrt ([(0, 0), (0, 10), (10, 10), (10, 0)] : List (Point ℝ))
      (([(0, 0), (0, 10), (10, 10), (10, 0)] : List (Point ℝ)).length - 1) = (1, 10) := by
  apply scan_unique Real.sqrt _ _ 1 10 (le_refl _) (by decide)
  · exact square_dist_one.symm
  · norm_num
  · intro i h1 h2
    omega
  · intro i h1 h2
    have h3 : i < 3 := h2
    interval_cases i
    · exact le_of_eq square_dist_one
    · exact le_of_eq square_dist_two

theorem square_tail :
    RamerDouglasPeucker Real.sqrt [(0, 10), (10, 10), (10, 0)] 0.01 =
      some (.ok [(0, 10), (10, 10), (10, 0)]) := by
  have hpos : (0 : ℝ) < PerpendicularDistance Real.sqrt ((10, 10) : Point ℝ) (0, 10) (10, 0) :=
    lt_trans (by norm_num) square_dist_diag
  have hscan : scan Real.sqrt ([(0, 10), (10, 10), (10, 0)] : List (Point ℝ))
      (([(0, 10), (10, 10), (10, 0)] : List (Point ℝ)).length - 1) =
      (1, PerpendicularDistance Real.sqrt ((10, 10) : Point ℝ) (0, 10) (10, 0)) := by
    have hstep : scan Real.sqrt ([(0, 10), (10, 10), (10, 0)] : List (Point ℝ))
        (([(0, 10), (10, 10), (10, 0)] : List (Point ℝ)).length - 1) =
        if PerpendicularDistance Real.sqrt ((10, 10) : Point ℝ) (0, 10) (10, 0) > 0 then
          (1, PerpendicularDistance Real.sqrt ((10, 10) : Point ℝ) (0, 10) (10, 0))
        else (0, 0) := rfl
    rw [hstep, if_pos hpos]
  exact RDP_of_split_at Real.sqrt _ 0.01 1 _ (by decide) hscan square_dist_diag
    [(0, 10), (10, 10)] [(10, 10), (10, 0)]
    (RDP_pair Real.sqrt _ _ _ (by norm_num)) (RDP_pair Real.sqrt _ _ _ (by norm_num))
    (by decide)

/-- C14: `RamerDouglasPeucker` applied to the square corners `[(0,0),(0,10),(10,10),(10,0)]`
with `epsilon = 0.01` returns all four corners in order; the two interior corners tie at
distance `10` from the line through the first and the last corner, and the scan selects the
first of them (`index = 1`, `dmax = 10`). -/
theorem RamerDouglasPeucker_square :
    RamerDouglasPeucker Real.sqrt [(0, 0), (0, 10), (10, 10), (10, 0)] 0.01 =
      some (.ok [(0, 0), (0, 10), (10, 10), (10, 0)]) ∧
    distAt Real.sqrt ([(0, 0), (0, 10), (10, 10), (10, 0)] : List (Point ℝ)) 3 1 = 10 ∧
    distAt Real.sqrt ([(0, 0), (0, 10), (10, 10), (10, 0)] : List (Point ℝ)) 3 2 = 10 ∧
    scan Real.sqrt ([(0, 0), (0, 10), (10, 10), (10, 0)] : List (Point ℝ)) 3 = (1, 10) := by
  refine ⟨?_, square_dist_one, square_dist_two, square_scan⟩
  exact RDP_of_split_at Real.sqrt _ 0.01 1 10 (by decide) square_scan (by norm_num)
    [(0, 0), (0, 10)] [(0, 10), (10, 10), (10, 0)]
    (RDP_pair Real.sqrt _ _ _ (by norm_num)) square_tail (by decide)

/-! ### Exceptions -/

/-- An exception of the first recursive call is the exception of the call. -/
theorem RDP_of_first_error {α : Type} [LinearOrderedField α] (sqrt : α → α)
    (P : List (Point α)) (e : α) (hP : 2 ≤ P.length)
    (hd : (scan sqrt P (P.length - 1)).2 > e) (err : RDPError)
    (h1 : RamerDouglasPeucker sqrt (P.take ((scan sqrt P (P.length - 1)).1 + 1)) e =
      some (.error err)) :
    RamerDouglasPeucker sqrt P e = some (.error err) := by
  rw [RamerDouglasPeucker_unfold]
  unfold RDPbody
  rw [if_neg (by omega), if_pos hd]
  simp only [h1]

/-- An exception of the second recursive call, after the first one returned, is the exception
of the call. -/
theorem RDP_of_second_error {α : Type} [LinearOrderedField α] (sqrt : α → α)
    (P : List (Point α)) (e : α) (hP : 2 ≤ P.length)
    (hd : (scan sqrt P (P.length - 1)).2 > e) (r1 : List (Point α)) (err : RDPError)
    (h1 : RamerDouglasPeucker sqrt (P.take ((scan sqrt P (P.length - 1)).1 + 1)) e =
      some (.ok r1))
    (h2 : RamerDouglasPeucker sqrt (P.drop (scan sqrt P (P.length - 1)).1) e =
      some (.error err)) :
    RamerDouglasPeucker sqrt P e = some (.error err) := by
  rw [RamerDouglasPeucker_unfold]
  unfold RDPbody
  rw [if_neg (by omega), if_pos hd]
  simp only [h1, h2]

/-- For every tolerance the call ends (the fuel suffices), the exception is never
`runtime_error`, and a normal return has at least two points. -/
theorem RDP_result {α : Type} [LinearOrderedField α] (sqrt : α → α) (e : α) :
    ∀ (n : Nat) (P : List (Point α)), P.length = n →
      ∃ r, RamerDouglasPeucker sqrt P e = some r ∧ r ≠ .error .runtime_error ∧
        ∀ out, r = .ok out → 2 ≤ out.length := by
  intro n
  induction n using Nat.strong_induction_on with
  | _ n ih =>
    intro P hn
    by_cases hlen : P.length < 2
    · refine ⟨_, RDP_of_short sqrt P e hlen, by simp, ?_⟩
      intro out h
      cases h
    · have hP : 2 ≤ P.length := by omega
      by_cases hd : (scan sqrt P (P.length - 1)).2 > e
      · have hidx := scan_index_lt sqrt P (P.length - 1) (by omega)
        have hl1 := length_firstLine sqrt P hP
        have hl2 := length_lastLine sqrt P
        obtain ⟨r1, hr1, hne1, hlen1⟩ := ih _ (by omega)
          (P.take ((scan sqrt P (P.length - 1)).1 + 1)) rfl
        cases r1 with
        | error err =>
          refine ⟨_, RDP_of_first_error sqrt P e hP hd err hr1, hne1, ?_⟩
          intro out h
          cases h
        | ok o1 =>
          have h0 : (scan sqrt P (P.length - 1)).1 ≠ 0 := by
            intro h0
            rw [RDP_of_short sqrt _ e (by omega)] at hr1
            cases hr1
          obtain ⟨r2, hr2, hne2, hlen2⟩ := ih _ (by omega)
            (P.drop (scan sqrt P (P.length - 1)).1) rfl
          cases r2 with
          | error err =>
            refine ⟨_, RDP_of_second_error sqrt P e hP hd o1 err hr1 hr2, hne2, ?_⟩
            intro out h
            cases h
          | ok o2 =>
            have h1 := hlen1 o1 rfl
            have h2 := hlen2 o2 rfl
            have hlen : (o1.dropLast ++ o2).length = o1.length - 1 + o2.length := by
              rw [List.length_append, List.length_dropLast]
            refine ⟨_, RDP_of_split sqrt P e hP hd o1 o2 hr1 hr2 (by omega), by simp, ?_⟩
            intro out h
            cases h
            omega
      · refine ⟨_, RDP_of_no_split sqrt P e hP hd, by simp, ?_⟩
        intro out h
        cases h
        simp

/-- A negative tolerance always ends in `invalid_argument`. -/
theorem RDP_negative {α : Type} [LinearOrderedField α] (sqrt : α → α) (e : α) (he : e < 0) :
    ∀ (n : Nat) (P : List (Point α)), P.length = n → 2 ≤ P.length →
      RamerDouglasPeucker sqrt P e = some (.error .invalid_argument) := by
  intro n
  induction n using Nat.strong_induction_on with
  | _ n ih =>
    intro P hn hP
    have hd : (scan sqrt P (P.length - 1)).2 > e :=
      lt_of_lt_of_le he (scan_dmax_nonneg sqrt P (P.length - 1))
    have hidx := scan_index_lt sqrt P (P.length - 1) (by omega)
    have hl1 := length_firstLine sqrt P hP
    apply RDP_of_first_error sqrt P e hP hd
    by_cases h0 : (scan sqrt P (P.length - 1)).1 = 0
    · exact RDP_of_short sqrt _ e (by omega)
    · exact ih _ (by omega) _ rfl (by omega)

/-- C15 (the assembly check is unreachable): for every polyline and every `epsilon`
(negative values included), `RamerDouglasPeucker` ends without raising `runtime_error`
("Problem assembling output"): every normal return has at least 2 points, so whenever both
recursive calls return, the merged output has at least 3 points. -/
theorem RamerDouglasPeucker_no_runtime_error (P : List (Point ℝ)) (epsilon : ℝ) :
    RamerDouglasPeucker Real.sqrt P epsilon ≠ some (.error .runtime_error) ∧
    (∃ r, RamerDouglasPeucker Real.sqrt P epsilon = some r) ∧
    (∀ out, RamerDouglasPeucker Real.sqrt P epsilon = some (.ok out) → 2 ≤ out.length) ∧
    ∀ r1 r2,
      RamerDouglasPeucker Real.sqrt
        (P.take ((scan Real.sqrt P (P.length - 1)).1 + 1)) epsilon = some (.ok r1) →
      RamerDouglasPeucker Real.sqrt
        (P.drop (scan Real.sqrt P (P.length - 1)).1) epsilon = some (.ok r2) →
      3 ≤ (r1.dropLast ++ r2).length := by
  obtain ⟨r, hr, hne, hlen⟩ := RDP_result Real.sqrt epsilon P.length P rfl
  refine ⟨?_, ⟨r, hr⟩, ?_, ?_⟩
  · rw [hr]
    intro h
    exact hne (Option.some.inj h)
  · intro out hout
    rw [hr] at hout
    exact hlen out (Option.some.inj hout)
  · intro r1 r2 h1 h2
    obtain ⟨s1, hs1, _, hlen1⟩ := RDP_result Real.sqrt epsilon _
      (P.take ((scan Real.sqrt P (P.length - 1)).1 + 1)) rfl
    obtain ⟨s2, hs2, _, hlen2⟩ := RDP_result Real.sqrt epsilon _
      (P.drop (scan Real.sqrt P (P.length - 1)).1) rfl
    rw [hs1] at h1
    rw [hs2] at h2
    have a1 := hlen1 r1 (Option.some.inj h1)
    have a2 := hlen2 r2 (Option.some.inj h2)
    rw [List.length_append, List.length_dropLast]
    omega

/-- Following the first sub-polylines from any polyline with at least two points leads to one
where the scan selects nothing (`index = 0`, `dmax = 0`), whose first sub-polyline is a single
point. -/
theorem firstLine_chain_ends {α : Type} [LinearOrderedField α] (sqrt : α → α) :
    ∀ (n : Nat) (P : List (Point α)), P.length = n → 2 ≤ P.length →
      ∃ k, 2 ≤ ((firstLineOf sqrt)^[k] P).length ∧
        scan sqrt ((firstLineOf sqrt)^[k] P) (((firstLineOf sqrt)^[k] P).length - 1) = (0, 0) ∧
        (firstLineOf sqrt ((firstLineOf sqrt)^[k] P)).length = 1 := by
  intro n
  induction n using Nat.strong_induction_on with
  | _ n ih =>
    intro P hn hP
    have hidx := scan_index_lt sqrt P (P.length - 1) (by omega)
    have hl1 := length_firstLine sqrt P hP
    by_cases h0 : (scan sqrt P (P.length - 1)).1 = 0
    · refine ⟨0, hP, ?_, ?_⟩
      · rcases scan_spec sqrt P (P.length - 1) with ⟨h1, h2, _⟩ | ⟨h1, _⟩
        · exact Prod.ext h1 h2
        · omega
      · show (P.take ((scan sqrt P (P.length - 1)).1 + 1)).length = 1
        omega
    · have hfl : (firstLineOf sqrt P).length = (scan sqrt P (P.length - 1)).1 + 1 := hl1
      obtain ⟨k, hk⟩ := ih _ (by omega) (firstLineOf sqrt P) rfl (by omega)
      refine ⟨k + 1, ?_⟩
      rw [Function.iterate_succ_apply]
      exact hk

/-- C19 (negative tolerance): for every polyline with at least 2 points and every
`epsilon < 0`, `RamerDouglasPeucker` ends by raising `invalid_argument` and returns no
output: `dmax ≥ 0 > epsilon` forces a split in every call, and the chain of first
sub-polylines reaches a segment with `dmax = 0` and `index = 0` whose first sub-polyline has
a single point. -/
theorem RamerDouglasPeucker_negative_tolerance (P : List (Point ℝ)) (epsilon : ℝ)
    (hP : 2 ≤ P.length) (he : epsilon < 0) :
    RamerDouglasPeucker Real.sqrt P epsilon = some (.error .invalid_argument) ∧
    (∀ out, RamerDouglasPeucker Real.sqrt P epsilon ≠ some (.ok out)) ∧
    (∀ Q : List (Point ℝ), (scan Real.sqrt Q (Q.length - 1)).2 > epsilon) ∧
    ∃ k, 2 ≤ ((firstLineOf Real.sqrt)^[k] P).length ∧
      scan Real.sqrt ((firstLineOf Real.sqrt)^[k] P)
        (((firstLineOf Real.sqrt)^[k] P).length - 1) = (0, 0) ∧
      (firstLineOf Real.sqrt ((firstLineOf Real.sqrt)^[k] P)).length = 1 := by
  have h := RDP_negative Real.sqrt epsilon he P.length P rfl hP
  refine ⟨h, ?_,
    fun Q => lt_of_lt_of_le he (scan_dmax_nonneg Real.sqrt Q (Q.length - 1)),
    firstLine_chain_ends Real.sqrt P.length P rfl hP⟩
  intro out hout
  rw [h] at hout
  cases hout

theorem RamerDouglasPeucker_negative_tolerance_witness :
    2 ≤ ([(0, 0), (1, 1), (2, 0)] : List (Point ℝ)).length ∧ (-1 : ℝ) < 0 ∧
    RamerDouglasPeucker Real.sqrt [(0, 0), (1, 1), (2, 0)] (-1) =
      some (.error .invalid_argument) ∧
    (∀ out, RamerDouglasPeucker Real.sqrt [(0, 0), (1, 1), (2, 0)] (-1) ≠ some (.ok out)) ∧
    (∀ Q : List (Point ℝ), (scan Real.sqrt Q (Q.length - 1)).2 > -1) ∧
    ∃ k, 2 ≤ ((firstLineOf Real.sqrt)^[k] [(0, 0), (1, 1), (2, 0)]).length ∧
      scan Real.sqrt ((firstLineOf Real.sqrt)^[k] [(0, 0), (1, 1), (2, 0)])
        (((firstLineOf Real.sqrt)^[k] [(0, 0), (1, 1), (2, 0)]).length - 1) = (0, 0) ∧
      (firstLineOf Real.sqrt
        ((firstLineOf Real.sqrt)^[k] [(0, 0), (1, 1), (2, 0)])).length = 1 :=
  ⟨by decide, by norm_num,
    RamerDouglasPeucker_negative_tolerance [(0, 0), (1, 1), (2, 0)] (-1) (by decide)
      (by norm_num)⟩

/-! ### Split selection -/

end Branches

/-! ## Ownership, bounds and the dropped remainder -/

section Ownership

theorem processedIndices_nodup (N w : Nat) (hw : w = 1 ∨ w = 2 ∨ w = 4) :
    (processedIndices N w).Nodup := by
  rcases hw with rfl | rfl | rfl
  · rw [processedIndices_one]
    exact List.nodup_range N
  · rw [processedIndices_two, List.nodup_append]
    refine ⟨List.nodup_range' _ _, List.nodup_range' _ _, ?_⟩
    intro k h1 h2
    have a1 := List.mem_range'_1.mp h1
    have a2 := List.mem_range'_1.mp h2
    omega
  · rw [processedIndices_four]
    exact List.nodup_range N

/-- A slot whose index is not in the list is left as it was, whenever the run ends normally. -/
theorem foldlM_simplifyInto_frame {α : Type} [LinearOrderedField α] (sqrt : α → α)
    (B : List (List (Point α))) (e : α) :
    ∀ (l : List Nat) (S out : List (List (Point α))),
      l.foldlM (simplifyInto sqrt B e) S = some out →
      ∀ k, k ∉ l → out.getD k [] = S.getD k [] := by
  intro l
  induction l with
  | nil =>
    intro S out h k _
    have hS : S = out := Option.some.inj h
    rw [hS]
  | cons k0 l ih =>
    intro S out h k hk
    rw [List.foldlM_cons] at h
    cases hstep : simplifyInto sqrt B e S k0 with
    | none =>
      rw [hstep] at h
      cases h
    | some S1 =>
      rw [hstep] at h
      have hS1 : ∃ r, S1 = S.set k0 r := by
        unfold simplifyInto at hstep
        split at hstep
        · exact ⟨_, (Option.some.inj hstep).symm⟩
        · cases hstep
      obtain ⟨r, rfl⟩ := hS1
      have hk0 : k0 ≠ k := fun hne => hk (hne ▸ List.mem_cons_self k0 l)
      rw [ih _ out h k (fun hmem => hk (List.mem_cons_of_mem k0 hmem)),
        getD_set_ne S k0 k r [] hk0]

/-- C17 (disjoint ownership): for every batch size `N` and every worker count in `{1, 2, 4}`
no output index is written more than once: the list of all writes, worker by worker (main
range, then remainder loop), has no repetition; so each worker's own list has none and the
lists of two different workers share no index. -/
theorem partition_disjoint_ownership (N w : Nat) (hw : w = 1 ∨ w = 2 ∨ w = 4) :
    (processedIndices N w).Nodup ∧
    (∀ k, (processedIndices N w).count k ≤ 1) ∧
    (∀ id, id < w → (workerIndices N w id).Nodup) ∧
    ∀ id1 id2, id1 < w → id2 < w → id1 ≠ id2 →
      ∀ k, k ∈ workerIndices N w id1 → k ∉ workerIndices N w id2 := by
  have hnd := processedIndices_nodup N w hw
  have hnd2 := hnd
  unfold processedIndices at hnd2
  rw [List.nodup_flatMap] at hnd2
  refine ⟨hnd, fun k => List.nodup_iff_count_le_one.mp hnd k, ?_, ?_⟩
  · intro id hid
    exact hnd2.1 id (List.mem_range.mpr hid)
  · intro id1 id2 h1 h2 hne k hk1 hk2
    have hpw := List.pairwise_iff_getElem.mp hnd2.2
    rcases Nat.lt_or_gt_of_ne hne with hlt | hgt
    · have := hpw id1 id2 (by simpa using h1) (by simpa using h2) hlt
      simp only [List.getElem_range] at this
      exact this hk1 hk2
    · have := hpw id2 id1 (by simpa using h2) (by simpa using h1) hgt
      simp only [List.getElem_range] at this
      exact this hk2 hk1

theorem partition_disjoint_ownership_witness :
    (2 = 1 ∨ 2 = 2 ∨ 2 = 4) ∧ (processedIndices 5 2).Nodup ∧
    (∀ k, (processedIndices 5 2).count k ≤ 1) ∧
    (∀ id, id < 2 → (workerIndices 5 2 id).Nodup) ∧
    ∀ id1 id2, id1 < 2 → id2 < 2 → id1 ≠ id2 →
      ∀ k, k ∈ workerIndices 5 2 id1 → k ∉ workerIndices 5 2 id2 :=
  ⟨by decide, partition_disjoint_ownership 5 2 (by decide)⟩

/-- C20 (in-bounds indexing): for every batch size `N` and every worker count in `{1, 2, 4}`,
every index `k` at which a worker reads `AllPolylines[k]` and writes
`SimplifiedAllPolylines[k]`, in its main range or in the remainder loop, satisfies
`0 ≤ k < N`. -/
theorem worker_indices_in_bounds (N w : Nat) (hw : w = 1 ∨ w = 2 ∨ w = 4) :
    ∀ id, id < w → ∀ k ∈ workerIndices N w id, 0 ≤ k ∧ k < N := by
  intro id hid k hk
  refine ⟨Nat.zero_le k, processedIndices_lt N w hw k ?_⟩
  unfold processedIndices
  exact List.mem_flatMap.mpr ⟨id, List.mem_range.mpr hid, hk⟩

theorem worker_indices_in_bounds_witness :
    (4 = 1 ∨ 4 = 2 ∨ 4 = 4) ∧ ∀ id, id < 4 → ∀ k ∈ workerIndices 5 4 id, 0 ≤ k ∧ k < 5 :=
  ⟨by decide, worker_indices_in_bounds 5 4 (by decide)⟩

/-- C18, counterexample: with 2 workers and a batch of 1 polyline (`1` is not divisible by
`2`, `workload_number = 0`) the remainder index `0 = 2 * workload_number` is processed, by
the remainder loop of worker 1 restarting at `4 * workload_number = 0`, and its slot holds
the simplified polyline, not the input. -/
theorem dropped_remainder_fails_for_one_polyline :
    ¬ (2 ∣ 1) ∧ 2 * (1 / 2) ≤ 0 ∧ 0 < 1 ∧ 0 ∈ processedIndices 1 2 ∧
    workerIndices 1 2 1 = [0] ∧
    runBatch Real.sqrt [[(0, 0), (1, 0), (2, 0)]] 1 2 = some [[(0, 0), (2, 0)]] ∧
    ([(0, 0), (2, 0)] : List (Point ℝ)) ≠ [(0, 0), (1, 0), (2, 0)] := by
  have hidx : processedIndices 1 2 = [0] := by decide
  refine ⟨by decide, by decide, by decide, by decide, by decide, ?_, by simp⟩
  simp [-Prod.mk_zero_zero, runBatch, hidx, simplifyInto, RDP_collinear]

/-- C18, amended (dropped remainder): for a worker count `w` of 1 or 2 and every batch size
`N` that is not divisible by `w` and gives every worker at least one polyline
(`N / w ≥ 1`), the remainder indices from `w * (N / w)` to `N - 1` are processed by no
worker, and whenever the run ends normally their output slots hold the unsimplified input
polylines; the run does end normally when every polyline has at least 2 points and the
tolerance is non-negative. -/
theorem dropped_remainder (N w : Nat) (hw : w = 1 ∨ w = 2) (hdiv : ¬ w ∣ N)
    (hc : 1 ≤ N / w) :
    (∀ k, w * (N / w) ≤ k → k < N → k ∉ processedIndices N w) ∧
    ∀ (B : List (List (Point ℝ))) (e : ℝ), B.length = N →
      (∀ out, runBatch Real.sqrt B e w = some out →
        ∀ k, w * (N / w) ≤ k → k < N → out.getD k [] = B.getD k []) ∧
      (0 ≤ e → (∀ k, k < B.length → 2 ≤ (B.getD k []).length) →
        ∃ out, runBatch Real.sqrt B e w = some out ∧ out.length = B.length) := by
  have hnot : ∀ k, w * (N / w) ≤ k → k < N → k ∉ processedIndices N w := by
    intro k h1 h2 hmem
    rcases hw with rfl | rfl
    · exact hdiv (one_dvd N)
    · rw [processedIndices_two] at hmem
      rcases List.mem_append.mp hmem with h | h
      · have := List.mem_range'_1.mp h
        omega
      · have := List.mem_range'_1.mp h
        omega
  refine ⟨hnot, ?_⟩
  intro B e hB
  constructor
  · intro out hout k h1 h2
    unfold runBatch at hout
    rw [hB] at hout
    exact foldlM_simplifyInto_frame Real.sqrt B e _ B out hout k (hnot k h1 h2)
  · intro he hvalid
    obtain ⟨out, hout, hlen, _⟩ := runBatch_spec Real.sqrt B e w he
      (by rcases hw with h | h
          · exact Or.inl h
          · exact Or.inr (Or.inl h)) hvalid
    exact ⟨out, hout, hlen⟩

theorem dropped_remainder_witness :
    (2 = 1 ∨ 2 = 2) ∧ ¬ (2 ∣ 3) ∧ 1 ≤ 3 / 2 ∧
    (∀ k, 2 * (3 / 2) ≤ k → k < 3 → k ∉ processedIndices 3 2) ∧
    ∀ (B : List (List (Point ℝ))) (e : ℝ), B.length = 3 →
      (∀ out, runBatch Real.sqrt B e 2 = some out →
        ∀ k, 2 * (3 / 2) ≤ k → k < 3 → out.getD k [] = B.getD k []) ∧
      (0 ≤ e → (∀ k, k < B.length → 2 ≤ (B.getD k []).length) →
        ∃ out, runBatch Real.sqrt B e 2 = some out ∧ out.length = B.length) :=
  ⟨by decide, by decide, by decide, dropped_remainder 3 2 (by decide) (by decide) (by decide)⟩

end Ownership

/-! ## Overflow: where the exact reading of `double` matters -/

section Overflow

theorem Dbl.not_nan_lt (x : Dbl) : ¬ Dbl.nan < x := by
  intro h
  cases h

end Overflow

end Static
